import Mathlib

/-!
Verification of the `dequedict` C extension (`src/dequedict/_dequedict.c`,
cache-bearing variant) and its no-cache sibling (`src/unnamed/part_000`)
against the natural-language specification.

The shallow embedding models a `DequeDictObject` as the list of live
entries in head-to-tail order, the set of keys stored in the internal
`PyDict` key index, the stored `size` counter, and the optional position
cache.  Entry pointers are identified by their keys: live keys are unique
(one live entry per key), so a stored entry pointer is represented by
the entry's key, and dereferencing a pointer is represented by looking
the key up in the entry list.  The cache array is modelled by the list of
its written slots (slots past `cache_size` are never read by the C code,
so they are dropped rather than kept as junk), together with the
`cache_capacity` and `cache_offset` counters.

Allocation failures (entry pool, cache reallocation, the
`PyLong_FromVoidPtr` handle and the `PyDict_SetItem` key-index insertion)
are driven by an explicit `AllocPlan` oracle so the error paths of
`DequeDict_setitem` / `DequeDict_appendleft` /
`DequeDict_cache_ensure_capacity` can be examined.
-/

set_option maxHeartbeats 1000000
set_option linter.unusedSectionVars false

namespace DequeDict

/-- Error taxonomy as raised by the C code: `KeyError`, `IndexError`,
`ValueError` (malformed pairs) and `MemoryError` (allocation failure). -/
inductive Err where
  | keyError
  | indexError
  | valueError
  | memoryError
deriving Repr, DecidableEq

deriving instance DecidableEq for Except

/-- Embeds `DequeDictEntry`: one key, one value, and the entry's stored
position-cache slot index (`cache_idx`, `-1` when unset).  The `prev`/`next`
links are represented by the position of the entry in the state's list. -/
structure Entry (K V : Type) where
  key : K
  value : V
  cache_idx : Int
deriving Repr, DecidableEq

/-- Embeds the position-cache fields of `DequeDictObject`: the written
slots of `index_cache` (each slot holds an entry pointer, represented by
the entry's key), `cache_capacity` and `cache_offset`.  `cache_size` is
the number of written slots, `slots.length`. -/
structure Cache (K : Type) where
  slots : List K
  capacity : Nat
  offset : Nat
deriving Repr, DecidableEq

/-- Embeds `DequeDictObject` (cache variant): the linked list of entries
head to tail, the keys present in the internal `dict` key index, the
`size` field, and the position cache (`none` when `index_cache == NULL`,
in which case the C code has size/capacity/offset all zero). -/
structure DD (K V : Type) where
  entries : List (Entry K V)
  index : List K
  size : Nat
  cache : Option (Cache K)
deriving Repr, DecidableEq

/-- Outcomes of the allocation sites exercised by one mutating call:
`entry_alloc`, the `PyMem_Realloc` inside `DequeDict_cache_ensure_capacity`,
`PyLong_FromVoidPtr`, and `PyDict_SetItem`. -/
structure AllocPlan where
  entryOk : Bool
  growOk : Bool
  capsuleOk : Bool
  dictSetOk : Bool
deriving Repr, DecidableEq

/-- The normal-execution plan: every allocation succeeds. -/
def allOk : AllocPlan := ⟨true, true, true, true⟩

variable {K V : Type} [DecidableEq K] [DecidableEq V]

/-- Keys of the live entries, head to tail. -/
def DD.keyList (d : DD K V) : List K := d.entries.map (·.key)

/-- Embeds `DequeDict_invalidate_cache`: free the array and zero
`cache_size`, `cache_capacity`, `cache_offset`. -/
def DD.invalidate_cache (d : DD K V) : DD K V := { d with cache := none }

/-- Embeds `DequeDict_rebuild_cache` (allocation assumed to succeed):
invalidate, then if the container is non-empty allocate `size` slots,
walk the list filling slots left to right and recording each entry's
slot index, with offset zero. -/
def DD.rebuild_cache (d : DD K V) : DD K V :=
  if d.size = 0 then d.invalidate_cache
  else
    { d with
      entries := d.entries.enum.map (fun p => { p.2 with cache_idx := (p.1 : Int) }),
      cache := some { slots := d.entries.map (·.key), capacity := d.size, offset := 0 } }

/-- Embeds `DequeDict_cache_ensure_capacity`: if the array is full,
double the capacity (minimum 8) by reallocation; on reallocation failure
(`growOk = false`) invalidate the cache (`none`) and report failure. -/
def cache_ensure_capacity (growOk : Bool) (c : Cache K) : Option (Cache K) :=
  if c.slots.length < c.capacity then some c
  else
    let new_cap := c.capacity * 2
    let new_cap := if new_cap < 8 then 8 else new_cap
    if growOk then some { c with capacity := new_cap } else none

/-- Embeds the `PyDict_GetItem` + `PyLong_AsVoidPtr` lookup: consult the
key index, then dereference the stored handle (find the live entry with
that key). -/
def DD.lookupEntry (d : DD K V) (k : K) : Option (Entry K V) :=
  if k ∈ d.index then d.entries.find? (fun e => e.key == k) else none

/-- Embeds `DequeDict_getitem` (`__getitem__`): `KeyError` when absent. -/
def DD.getitem (d : DD K V) (k : K) : Except Err V :=
  match d.lookupEntry k with
  | some e => Except.ok e.value
  | none => Except.error Err.keyError

/-- Embeds `DequeDict_get`: return the stored value, or the default. -/
def DD.get (d : DD K V) (k : K) (dflt : V) : V :=
  match d.lookupEntry k with
  | some e => e.value
  | none => dflt

/-- Embeds `DequeDict_contains` (`__contains__`): `PyDict_Contains`. -/
def DD.hasKey (d : DD K V) (k : K) : Bool := decide (k ∈ d.index)

/-- Embeds `DequeDict_setitem` with `value != NULL` (`__setitem__`).
If the key exists the value is replaced in place (no cache effect, the
cache stores entry pointers).  Otherwise a new entry is linked at the
tail, `size` is incremented, the cache (when present) is appended to
(or invalidated if its growth fails), and finally the handle is created
and stored in the key index.  Failure of the handle or key-index step
frees the entry but, as in the C code, does not unlink it. -/
def DD.setitem (p : AllocPlan) (d : DD K V) (k : K) (v : V) :
    DD K V × Except Err Unit :=
  if k ∈ d.index then
    ({ d with
        entries := d.entries.map (fun e => if e.key = k then { e with value := v } else e) },
     Except.ok ())
  else if p.entryOk = false then
    (d, Except.error Err.memoryError)
  else
    let cacheStep : Int × Option (Cache K) :=
      match d.cache with
      | none => (-1, none)
      | some c =>
        match cache_ensure_capacity p.growOk c with
        | some c2 => ((c2.slots.length : Int), some { c2 with slots := c2.slots ++ [k] })
        | none => (-1, none)
    let e : Entry K V := { key := k, value := v, cache_idx := cacheStep.1 }
    let d1 : DD K V :=
      { d with entries := d.entries ++ [e], size := d.size + 1, cache := cacheStep.2 }
    if p.capsuleOk = false ∨ p.dictSetOk = false then
      (d1, Except.error Err.memoryError)
    else
      ({ d1 with index := k :: d1.index }, Except.ok ())

/-- Embeds `DequeDict_setitem` with `value == NULL` (`__delitem__`):
`KeyError` when absent; otherwise unlink the entry, remove the key from
the key index, decrement `size`, invalidate the cache. -/
def DD.delitem (d : DD K V) (k : K) : DD K V × Except Err Unit :=
  if k ∈ d.index then
    ({ d with
        entries := d.entries.eraseP (fun e => e.key == k),
        index := d.index.erase k,
        size := d.size - 1,
        cache := none },
     Except.ok ())
  else
    (d, Except.error Err.keyError)

/-- Embeds `DequeDict_peekleft`: first value, `IndexError` when empty. -/
def DD.peekleft (d : DD K V) : Except Err V :=
  match d.entries with
  | [] => Except.error Err.indexError
  | e :: _ => Except.ok e.value

/-- Embeds `DequeDict_peekleftitem`: first pair, `IndexError` when empty. -/
def DD.peekleftitem (d : DD K V) : Except Err (K × V) :=
  match d.entries with
  | [] => Except.error Err.indexError
  | e :: _ => Except.ok (e.key, e.value)

/-- Embeds `DequeDict_peekleftkey`: first key, `IndexError` when empty. -/
def DD.peekleftkey (d : DD K V) : Except Err K :=
  match d.entries with
  | [] => Except.error Err.indexError
  | e :: _ => Except.ok e.key

/-- Embeds `DequeDict_peek`: last value, `IndexError` when empty. -/
def DD.peek (d : DD K V) : Except Err V :=
  match d.entries.getLast? with
  | none => Except.error Err.indexError
  | some e => Except.ok e.value

/-- Embeds `DequeDict_peekitem`: last pair, `IndexError` when empty. -/
def DD.peekitem (d : DD K V) : Except Err (K × V) :=
  match d.entries.getLast? with
  | none => Except.error Err.indexError
  | some e => Except.ok (e.key, e.value)

/-- Embeds `DequeDict_popleft`: unlink the head, remove its key from the
index, decrement `size`, and bump `cache_offset` instead of invalidating. -/
def DD.popleft (d : DD K V) : DD K V × Except Err V :=
  match d.entries with
  | [] => (d, Except.error Err.indexError)
  | e :: rest =>
    ({ d with
        entries := rest,
        index := d.index.erase e.key,
        size := d.size - 1,
        cache :=
          match d.cache with
          | some c => some { c with offset := c.offset + 1 }
          | none => none },
     Except.ok e.value)

/-- Embeds `DequeDict_popleftitem`: like `popleft` but returns the pair;
the empty-container error is a `KeyError` in the C code. -/
def DD.popleftitem (d : DD K V) : DD K V × Except Err (K × V) :=
  match d.entries with
  | [] => (d, Except.error Err.keyError)
  | e :: rest =>
    ({ d with
        entries := rest,
        index := d.index.erase e.key,
        size := d.size - 1,
        cache :=
          match d.cache with
          | some c => some { c with offset := c.offset + 1 }
          | none => none },
     Except.ok (e.key, e.value))

/-- Embeds the `key == NULL` branch of `DequeDict_pop`: pop from the
right; an empty container returns the default when one was supplied and
raises `IndexError` otherwise; the cache loses its last written slot
(`cache_size--`) instead of being invalidated. -/
def DD.popright (d : DD K V) (dflt : Option V) : DD K V × Except Err V :=
  match d.entries.getLast? with
  | none =>
    match dflt with
    | some v => (d, Except.ok v)
    | none => (d, Except.error Err.indexError)
  | some e =>
    ({ d with
        entries := d.entries.dropLast,
        index := d.index.erase e.key,
        size := d.size - 1,
        cache :=
          match d.cache with
          | some c =>
            some { c with slots := if 0 < c.slots.length then c.slots.dropLast else c.slots }
          | none => none },
     Except.ok e.value)

/-- Embeds the by-key branch of `DequeDict_pop`: absent key returns the
default when given, else `KeyError`; a present key is removed like
`__delitem__` (interior unlink, cache invalidated) returning its value. -/
def DD.pop_by_key (d : DD K V) (k : K) (dflt : Option V) : DD K V × Except Err V :=
  if k ∈ d.index then
    match d.entries.find? (fun e => e.key == k) with
    | some e =>
      ({ d with
          entries := d.entries.eraseP (fun x => x.key == k),
          index := d.index.erase k,
          size := d.size - 1,
          cache := none },
       Except.ok e.value)
    | none => (d, Except.error Err.keyError)
  else
    match dflt with
    | some v => (d, Except.ok v)
    | none => (d, Except.error Err.keyError)

/-- Embeds `DequeDict_pop` with its optional arguments. -/
def DD.pop (d : DD K V) (key : Option K) (dflt : Option V) : DD K V × Except Err V :=
  match key with
  | none => d.popright dflt
  | some k => d.pop_by_key k dflt

/-- Embeds `DequeDict_popitem`: remove and return the last pair;
`KeyError` when empty; `cache_size--` when the cache is present. -/
def DD.popitem (d : DD K V) : DD K V × Except Err (K × V) :=
  match d.entries.getLast? with
  | none => (d, Except.error Err.keyError)
  | some e =>
    ({ d with
        entries := d.entries.dropLast,
        index := d.index.erase e.key,
        size := d.size - 1,
        cache :=
          match d.cache with
          | some c =>
            some { c with slots := if 0 < c.slots.length then c.slots.dropLast else c.slots }
          | none => none },
     Except.ok (e.key, e.value))

/-- Embeds `DequeDict_appendleft`: `KeyError` when the key exists;
otherwise link a new entry at the head, increment `size`, invalidate the
cache, then create the handle and store it in the key index.  As in
`setitem`, handle/key-index failure frees the entry without unlinking. -/
def DD.appendleft (p : AllocPlan) (d : DD K V) (k : K) (v : V) :
    DD K V × Except Err Unit :=
  if k ∈ d.index then
    (d, Except.error Err.keyError)
  else if p.entryOk = false then
    (d, Except.error Err.memoryError)
  else
    let e : Entry K V := { key := k, value := v, cache_idx := -1 }
    let d1 : DD K V :=
      { d with entries := e :: d.entries, size := d.size + 1, cache := none }
    if p.capsuleOk = false ∨ p.dictSetOk = false then
      (d1, Except.error Err.memoryError)
    else
      ({ d1 with index := k :: d1.index }, Except.ok ())

/-- Embeds `DequeDict_move_to_end`: `KeyError` when absent; no-op when
the entry is already at the requested end (the pointer comparisons
`entry == self->tail` / `entry == self->head` are represented by
comparing keys, keys of live entries being unique); otherwise unlink,
invalidate the cache, and relink at the requested end. -/
def DD.move_to_end (d : DD K V) (k : K) (last : Bool) : DD K V × Except Err Unit :=
  if k ∈ d.index then
    match d.entries.find? (fun e => e.key == k) with
    | none => (d, Except.error Err.keyError)
    | some e =>
      let atEnd : Bool :=
        if last then decide (d.entries.getLast?.map (·.key) = some k)
        else decide (d.entries.head?.map (·.key) = some k)
      if atEnd then (d, Except.ok ())
      else
        let rest := d.entries.eraseP (fun x => x.key == k)
        ({ d with
            entries := if last then rest ++ [e] else e :: rest,
            cache := none },
         Except.ok ())
  else (d, Except.error Err.keyError)

/-- Embeds `DequeDict_clear_method`: free every entry, clear the key
index, reset head/tail/size, invalidate the cache. -/
def DD.clearAll (_d : DD K V) : DD K V :=
  { entries := [], index := [], size := 0, cache := none }

/-- Embeds the forward key iterator (`DequeDict_iter` walked to
exhaustion): the keys head to tail. -/
def DD.iterKeys (d : DD K V) : List K := d.entries.map (·.key)

/-- Embeds the reverse iterator (`DequeDict_reversed` walked to
exhaustion): the keys tail to head. -/
def DD.reversedKeys (d : DD K V) : List K := (d.entries.map (·.key)).reverse

/-- Embeds `DequeDict_at`: rebuild the cache when absent; an empty
container yields `IndexError`; negative indices get `logical_size`
added; out-of-range indices yield `IndexError`; otherwise dereference
the slot at `cache_offset + index`. -/
def DD.atIndex (d : DD K V) (i : Int) : DD K V × Except Err V :=
  let d1 := if d.cache.isSome then d else d.rebuild_cache
  match d1.cache with
  | none => (d1, Except.error Err.indexError)
  | some c =>
    let logical : Int := (c.slots.length : Int) - (c.offset : Int)
    let j := if i < 0 then i + logical else i
    if j < 0 ∨ logical ≤ j then (d1, Except.error Err.indexError)
    else
      match (c.slots.get? (c.offset + j.toNat)).bind
              (fun k => d1.entries.find? (fun e => e.key == k)) with
      | some e => (d1, Except.ok e.value)
      | none => (d1, Except.error Err.indexError)

/-- Embeds `DequeDict_richcompare` with `Py_EQ` against a mapping, the
mapping being given as an association list (`PyMapping_Size` is its
length, `PyObject_GetItem` is association-list lookup): sizes must agree
and every entry's key must be mapped to an equal value. -/
def DD.eqMap (d : DD K V) (other : List (K × V)) : Bool :=
  if d.size ≠ other.length then false
  else d.entries.all (fun e =>
    match other.lookup e.key with
    | some v => e.value == v
    | none => false)

/-!
The no-cache variant (`src/unnamed/part_000`): the same C code without
the `index_cache` / `cache_size` / `cache_capacity` / `cache_offset`
fields, without `at(index)`, and without any cache maintenance.  Its
entry type has no `cache_idx` field.
-/

/-- Entry of the no-cache variant: key, value and links only. -/
structure EntryNC (K V : Type) where
  key : K
  value : V
deriving Repr, DecidableEq

/-- State of the no-cache variant: entry list, key index and size. -/
structure NC (K V : Type) where
  entries : List (EntryNC K V)
  index : List K
  size : Nat
deriving Repr, DecidableEq

/-- Forgets an entry's cache slot index. -/
def Entry.toNC (e : Entry K V) : EntryNC K V := { key := e.key, value := e.value }

/-- Erasure of a cache-variant state to a no-cache state: drop the cache
and every entry's slot index. -/
def DD.toNC (d : DD K V) : NC K V :=
  { entries := d.entries.map Entry.toNC, index := d.index, size := d.size }

/-- No-cache `DequeDict_getitem`. -/
def NC.getitem (d : NC K V) (k : K) : Except Err V :=
  if k ∈ d.index then
    match d.entries.find? (fun e => e.key == k) with
    | some e => Except.ok e.value
    | none => Except.error Err.keyError
  else Except.error Err.keyError

/-- No-cache `DequeDict_get`. -/
def NC.get (d : NC K V) (k : K) (dflt : V) : V :=
  if k ∈ d.index then
    match d.entries.find? (fun e => e.key == k) with
    | some e => e.value
    | none => dflt
  else dflt

/-- No-cache `DequeDict_contains`. -/
def NC.hasKey (d : NC K V) (k : K) : Bool := decide (k ∈ d.index)

/-- No-cache `DequeDict_setitem` with `value != NULL` (normal
execution: every allocation succeeds). -/
def NC.setitem (d : NC K V) (k : K) (v : V) : NC K V × Except Err Unit :=
  if k ∈ d.index then
    ({ d with
        entries := d.entries.map (fun e => if e.key = k then { e with value := v } else e) },
     Except.ok ())
  else
    let e : EntryNC K V := { key := k, value := v }
    ({ d with entries := d.entries ++ [e], size := d.size + 1, index := k :: d.index },
     Except.ok ())

/-- No-cache `DequeDict_setitem` with `value == NULL` (`__delitem__`). -/
def NC.delitem (d : NC K V) (k : K) : NC K V × Except Err Unit :=
  if k ∈ d.index then
    ({ d with
        entries := d.entries.eraseP (fun e => e.key == k),
        index := d.index.erase k,
        size := d.size - 1 },
     Except.ok ())
  else
    (d, Except.error Err.keyError)

/-- No-cache `DequeDict_peekleft`. -/
def NC.peekleft (d : NC K V) : Except Err V :=
  match d.entries with
  | [] => Except.error Err.indexError
  | e :: _ => Except.ok e.value

/-- No-cache `DequeDict_peekleftitem`. -/
def NC.peekleftitem (d : NC K V) : Except Err (K × V) :=
  match d.entries with
  | [] => Except.error Err.indexError
  | e :: _ => Except.ok (e.key, e.value)

/-- No-cache `DequeDict_peekleftkey`. -/
def NC.peekleftkey (d : NC K V) : Except Err K :=
  match d.entries with
  | [] => Except.error Err.indexError
  | e :: _ => Except.ok e.key

/-- No-cache `DequeDict_peek`. -/
def NC.peek (d : NC K V) : Except Err V :=
  match d.entries.getLast? with
  | none => Except.error Err.indexError
  | some e => Except.ok e.value

/-- No-cache `DequeDict_peekitem`. -/
def NC.peekitem (d : NC K V) : Except Err (K × V) :=
  match d.entries.getLast? with
  | none => Except.error Err.indexError
  | some e => Except.ok (e.key, e.value)

/-- No-cache `DequeDict_popleft`. -/
def NC.popleft (d : NC K V) : NC K V × Except Err V :=
  match d.entries with
  | [] => (d, Except.error Err.indexError)
  | e :: rest =>
    ({ d with entries := rest, index := d.index.erase e.key, size := d.size - 1 },
     Except.ok e.value)

/-- No-cache `DequeDict_popleftitem`. -/
def NC.popleftitem (d : NC K V) : NC K V × Except Err (K × V) :=
  match d.entries with
  | [] => (d, Except.error Err.keyError)
  | e :: rest =>
    ({ d with entries := rest, index := d.index.erase e.key, size := d.size - 1 },
     Except.ok (e.key, e.value))

/-- No-cache `DequeDict_pop`, `key == NULL` branch. -/
def NC.popright (d : NC K V) (dflt : Option V) : NC K V × Except Err V :=
  match d.entries.getLast? with
  | none =>
    match dflt with
    | some v => (d, Except.ok v)
    | none => (d, Except.error Err.indexError)
  | some e =>
    ({ d with
        entries := d.entries.dropLast,
        index := d.index.erase e.key,
        size := d.size - 1 },
     Except.ok e.value)

/-- No-cache `DequeDict_pop`, by-key branch. -/
def NC.pop_by_key (d : NC K V) (k : K) (dflt : Option V) : NC K V × Except Err V :=
  if k ∈ d.index then
    match d.entries.find? (fun e => e.key == k) with
    | some e =>
      ({ d with
          entries := d.entries.eraseP (fun x => x.key == k),
          index := d.index.erase k,
          size := d.size - 1 },
       Except.ok e.value)
    | none => (d, Except.error Err.keyError)
  else
    match dflt with
    | some v => (d, Except.ok v)
    | none => (d, Except.error Err.keyError)

/-- No-cache `DequeDict_pop` with its optional arguments. -/
def NC.pop (d : NC K V) (key : Option K) (dflt : Option V) : NC K V × Except Err V :=
  match key with
  | none => d.popright dflt
  | some k => d.pop_by_key k dflt

/-- No-cache `DequeDict_popitem`. -/
def NC.popitem (d : NC K V) : NC K V × Except Err (K × V) :=
  match d.entries.getLast? with
  | none => (d, Except.error Err.keyError)
  | some e =>
    ({ d with
        entries := d.entries.dropLast,
        index := d.index.erase e.key,
        size := d.size - 1 },
     Except.ok (e.key, e.value))

/-- No-cache `DequeDict_appendleft` (normal execution). -/
def NC.appendleft (d : NC K V) (k : K) (v : V) : NC K V × Except Err Unit :=
  if k ∈ d.index then
    (d, Except.error Err.keyError)
  else
    let e : EntryNC K V := { key := k, value := v }
    ({ d with entries := e :: d.entries, size := d.size + 1, index := k :: d.index },
     Except.ok ())

/-- No-cache `DequeDict_move_to_end`. -/
def NC.move_to_end (d : NC K V) (k : K) (last : Bool) : NC K V × Except Err Unit :=
  if k ∈ d.index then
    match d.entries.find? (fun e => e.key == k) with
    | none => (d, Except.error Err.keyError)
    | some e =>
      let atEnd : Bool :=
        if last then decide (d.entries.getLast?.map (·.key) = some k)
        else decide (d.entries.head?.map (·.key) = some k)
      if atEnd then (d, Except.ok ())
      else
        let rest := d.entries.eraseP (fun x => x.key == k)
        ({ d with entries := if last then rest ++ [e] else e :: rest },
         Except.ok ())
  else (d, Except.error Err.keyError)

/-- No-cache `DequeDict_clear_method`. -/
def NC.clearAll (_d : NC K V) : NC K V := { entries := [], index := [], size := 0 }

/-- No-cache forward key iteration. -/
def NC.iterKeys (d : NC K V) : List K := d.entries.map (·.key)

/-- No-cache reverse key iteration. -/
def NC.reversedKeys (d : NC K V) : List K := (d.entries.map (·.key)).reverse

/-- No-cache `DequeDict_richcompare` with `Py_EQ` against a mapping. -/
def NC.eqMap (d : NC K V) (other : List (K × V)) : Bool :=
  if d.size ≠ other.length then false
  else d.entries.all (fun e =>
    match other.lookup e.key with
    | some v => e.value == v
    | none => false)

/-!
The shared public operation language.  `atOp` is the single operation
the no-cache variant does not offer.
-/

/-- One public operation of the container interface. -/
inductive Op (K V : Type) where
  | getOp : K → V → Op K V
  | getitemOp : K → Op K V
  | setitemOp : K → V → Op K V
  | delitemOp : K → Op K V
  | containsOp : K → Op K V
  | peekleftOp : Op K V
  | peekleftitemOp : Op K V
  | peekleftkeyOp : Op K V
  | peekOp : Op K V
  | peekitemOp : Op K V
  | popleftOp : Op K V
  | popleftitemOp : Op K V
  | popOp : Option K → Option V → Op K V
  | popitemOp : Op K V
  | appendleftOp : K → V → Op K V
  | moveToEndOp : K → Bool → Op K V
  | clearOp : Op K V
  | iterOp : Op K V
  | reversedOp : Op K V
  | eqOp : List (K × V) → Op K V
  | atOp : Int → Op K V
deriving Repr, DecidableEq

/-- Whether the operation is the positional access only the
cache-bearing variant offers. -/
def Op.usesCache : Op K V → Bool
  | .atOp _ => true
  | _ => false

/-- Observable outcome of one operation. -/
inductive Out (K V : Type) where
  | unit : Out K V
  | val : V → Out K V
  | item : K → V → Out K V
  | keyOut : K → Out K V
  | boolOut : Bool → Out K V
  | keysOut : List K → Out K V
  | err : Err → Out K V
deriving Repr, DecidableEq

/-- Packages an `Except`-of-value result as an outcome. -/
def outV : Except Err V → Out K V
  | Except.ok v => Out.val v
  | Except.error e => Out.err e

/-- Packages an `Except`-of-unit result as an outcome. -/
def outU : Except Err Unit → Out K V
  | Except.ok _ => Out.unit
  | Except.error e => Out.err e

/-- Packages an `Except`-of-pair result as an outcome. -/
def outI : Except Err (K × V) → Out K V
  | Except.ok p => Out.item p.1 p.2
  | Except.error e => Out.err e

/-- Packages an `Except`-of-key result as an outcome. -/
def outK : Except Err K → Out K V
  | Except.ok k => Out.keyOut k
  | Except.error e => Out.err e

/-- One public call on the cache-bearing variant, under normal execution
(every allocation succeeds). -/
def DD.step (d : DD K V) (op : Op K V) : DD K V × Out K V :=
  match op with
  | .getOp k v0 => (d, Out.val (d.get k v0))
  | .getitemOp k => (d, outV (d.getitem k))
  | .setitemOp k v => let r := d.setitem allOk k v; (r.1, outU r.2)
  | .delitemOp k => let r := d.delitem k; (r.1, outU r.2)
  | .containsOp k => (d, Out.boolOut (d.hasKey k))
  | .peekleftOp => (d, outV d.peekleft)
  | .peekleftitemOp => (d, outI d.peekleftitem)
  | .peekleftkeyOp => (d, outK d.peekleftkey)
  | .peekOp => (d, outV d.peek)
  | .peekitemOp => (d, outI d.peekitem)
  | .popleftOp => let r := d.popleft; (r.1, outV r.2)
  | .popleftitemOp => let r := d.popleftitem; (r.1, outI r.2)
  | .popOp k dflt => let r := d.pop k dflt; (r.1, outV r.2)
  | .popitemOp => let r := d.popitem; (r.1, outI r.2)
  | .appendleftOp k v => let r := d.appendleft allOk k v; (r.1, outU r.2)
  | .moveToEndOp k last => let r := d.move_to_end k last; (r.1, outU r.2)
  | .clearOp => (d.clearAll, Out.unit)
  | .iterOp => (d, Out.keysOut d.iterKeys)
  | .reversedOp => (d, Out.keysOut d.reversedKeys)
  | .eqOp other => (d, Out.boolOut (d.eqMap other))
  | .atOp i => let r := d.atIndex i; (r.1, outV r.2)

/-- One public call on the no-cache variant; `atOp` is not part of its
interface and leaves the state unchanged with a `KeyError`-free marker
outcome never compared against (the refinement theorem excludes it). -/
def NC.step (d : NC K V) (op : Op K V) : NC K V × Out K V :=
  match op with
  | .getOp k v0 => (d, Out.val (d.get k v0))
  | .getitemOp k => (d, outV (d.getitem k))
  | .setitemOp k v => let r := d.setitem k v; (r.1, outU r.2)
  | .delitemOp k => let r := d.delitem k; (r.1, outU r.2)
  | .containsOp k => (d, Out.boolOut (d.hasKey k))
  | .peekleftOp => (d, outV d.peekleft)
  | .peekleftitemOp => (d, outI d.peekleftitem)
  | .peekleftkeyOp => (d, outK d.peekleftkey)
  | .peekOp => (d, outV d.peek)
  | .peekitemOp => (d, outI d.peekitem)
  | .popleftOp => let r := d.popleft; (r.1, outV r.2)
  | .popleftitemOp => let r := d.popleftitem; (r.1, outI r.2)
  | .popOp k dflt => let r := d.pop k dflt; (r.1, outV r.2)
  | .popitemOp => let r := d.popitem; (r.1, outI r.2)
  | .appendleftOp k v => let r := d.appendleft k v; (r.1, outU r.2)
  | .moveToEndOp k last => let r := d.move_to_end k last; (r.1, outU r.2)
  | .clearOp => (d.clearAll, Out.unit)
  | .iterOp => (d, Out.keysOut d.iterKeys)
  | .reversedOp => (d, Out.keysOut d.reversedKeys)
  | .eqOp other => (d, Out.boolOut (d.eqMap other))
  | .atOp _ => (d, Out.unit)

/-- Runs a sequence of calls on the cache-bearing variant, collecting
the outcomes. -/
def DD.run (d : DD K V) (ops : List (Op K V)) : DD K V × List (Out K V) :=
  match ops with
  | [] => (d, [])
  | op :: rest =>
    let r := d.step op
    let rr := r.1.run rest
    (rr.1, r.2 :: rr.2)

/-- Runs a sequence of calls on the no-cache variant. -/
def NC.run (d : NC K V) (ops : List (Op K V)) : NC K V × List (Out K V) :=
  match ops with
  | [] => (d, [])
  | op :: rest =>
    let r := d.step op
    let rr := r.1.run rest
    (rr.1, r.2 :: rr.2)

/-!
Well-formedness and the position-cache invariant.
-/

/-- Structural well-formedness maintained by the C code: live keys are
unique, the key index holds exactly the live keys (each once), and the
`size` field counts the live entries. -/
def DD.WF (d : DD K V) : Prop :=
  (d.entries.map (·.key)).Nodup ∧
  d.index.Nodup ∧
  d.size = d.entries.length ∧
  (∀ k ∈ d.index, k ∈ d.entries.map (·.key)) ∧
  (∀ k ∈ d.entries.map (·.key), k ∈ d.index)

instance (d : DD K V) : Decidable d.WF := by
  unfold DD.WF; infer_instance

/-- The position cache mirrors the entry list: the slots from
`offset` up to `offset + logical_size` are the live entries head to
tail, the written slots fit the allocation, and every live entry's
stored slot index is its actual array position. -/
def Cache.Mirrors (c : Cache K) (entries : List (Entry K V)) : Prop :=
  c.offset ≤ c.slots.length ∧
  c.slots.length ≤ c.capacity ∧
  c.slots.drop c.offset = entries.map (·.key) ∧
  ∀ i : Fin entries.length, (entries.get i).cache_idx = (c.offset : Int) + (i : Nat)

instance (c : Cache K) (entries : List (Entry K V)) : Decidable (c.Mirrors entries) := by
  unfold Cache.Mirrors; infer_instance

/-- The cache invariant: absent, or mirroring the entry list. -/
def DD.CacheOk (d : DD K V) : Prop :=
  ∀ c, d.cache = some c → c.Mirrors d.entries

instance (d : DD K V) : Decidable d.CacheOk :=
  match h : d.cache with
  | none => isTrue (fun c hc => absurd (h ▸ hc) (by simp))
  | some c =>
    decidable_of_iff (Cache.Mirrors c d.entries)
      (Iff.intro
        (fun hm c2 hc2 => by rw [h] at hc2; exact (Option.some_inj.mp hc2) ▸ hm)
        (fun hall => hall c h))

/-- The full state invariant of the cache-bearing variant. -/
def DD.Invariant (d : DD K V) : Prop := d.WF ∧ d.CacheOk

instance (d : DD K V) : Decidable d.Invariant := by
  unfold DD.Invariant; infer_instance

/-!
Sample states used by the closed witness theorems.
-/

/-- The empty container. -/
def dEmpty : DD Nat Nat := { entries := [], index := [], size := 0, cache := none }

/-- The container after set(1,10); set(2,20); set(3,30) from empty
(spec scenario A), cache never materialized. -/
def dABC : DD Nat Nat :=
  { entries :=
      [ { key := 1, value := 10, cache_idx := -1 },
        { key := 2, value := 20, cache_idx := -1 },
        { key := 3, value := 30, cache_idx := -1 } ],
    index := [3, 2, 1],
    size := 3,
    cache := none }

/-- Scenario A state with the position cache materialized by `at`. -/
def dABCc : DD Nat Nat :=
  { entries :=
      [ { key := 1, value := 10, cache_idx := 0 },
        { key := 2, value := 20, cache_idx := 1 },
        { key := 3, value := 30, cache_idx := 2 } ],
    index := [3, 2, 1],
    size := 3,
    cache := some { slots := [1, 2, 3], capacity := 3, offset := 0 } }

/-- A one-entry container whose cache is present and full
(capacity equal to the written slots, as a rebuild leaves it). -/
def dFull : DD Nat Nat :=
  { entries := [ { key := 1, value := 10, cache_idx := 0 } ],
    index := [1],
    size := 1,
    cache := some { slots := [1], capacity := 1, offset := 0 } }

/-!
Helper lemmas about keys, find and erase on entry lists.
-/

theorem keys_update (l : List (Entry K V)) (k : K) (v : V) :
    (l.map (fun e => if e.key = k then { e with value := v } else e)).map (·.key) =
      l.map (·.key) := by
  rw [List.map_map]
  apply List.map_congr_left
  intro e _
  by_cases h : e.key = k <;> simp [h]

theorem find?_bykey_some {l : List (Entry K V)} {k : K} {e : Entry K V}
    (h : l.find? (fun x => x.key == k) = some e) : e ∈ l ∧ e.key = k := by
  refine ⟨List.mem_of_find?_eq_some h, ?_⟩
  have := List.find?_some h
  simpa using this

theorem find?_bykey_isSome {l : List (Entry K V)} {k : K}
    (h : k ∈ l.map (·.key)) : ∃ e, l.find? (fun x => x.key == k) = some e := by
  obtain ⟨e, he, hk⟩ := List.mem_map.mp h
  have : (l.find? (fun x => x.key == k)).isSome := by
    rw [List.find?_isSome]
    exact ⟨e, he, by simp [hk]⟩
  exact Option.isSome_iff_exists.mp this

theorem keys_eraseP (l : List (Entry K V)) (k : K) :
    (l.eraseP (fun x => x.key == k)).map (·.key) = (l.map (·.key)).erase k := by
  rw [List.erase_eq_eraseP', List.eraseP_map]
  rfl

theorem length_eraseP_bykey {l : List (Entry K V)} {k : K}
    (h : k ∈ l.map (·.key)) :
    (l.eraseP (fun x => x.key == k)).length = l.length - 1 := by
  obtain ⟨e, he, hk⟩ := List.mem_map.mp h
  exact List.length_eraseP_of_mem he (by simp [hk])

theorem find?_key_getElem (l : List (Entry K V)) (h : (l.map (·.key)).Nodup)
    (i : Nat) (hi : i < l.length) :
    l.find? (fun e => e.key == l[i].key) = some l[i] := by
  induction l generalizing i with
  | nil => simp at hi
  | cons a rest ih =>
    simp only [List.map_cons, List.nodup_cons] at h
    cases i with
    | zero => simp
    | succ n =>
      have hn : n < rest.length := by simpa using hi
      have hmem : rest[n].key ∈ rest.map (·.key) :=
        List.mem_map_of_mem _ (List.getElem_mem hn)
      have hne : ¬ (a.key == rest[n].key) = true := by
        simp only [beq_iff_eq]
        intro heq
        exact h.1 (heq ▸ hmem)
      rw [List.getElem_cons_succ, List.find?_cons_of_neg]
      · exact ih h.2 n hn
      · exact hne

/-!
Well-formedness preservation, one lemma per state-shape produced by the
mutating operations.
-/

theorem WF_append_entry (d : DD K V) (k : K) (v : V) (ci : Int) (co : Option (Cache K))
    (h : d.WF) (hm : k ∉ d.index) :
    (DD.mk (d.entries ++ [⟨k, v, ci⟩]) (k :: d.index) (d.size + 1) co).WF := by
  obtain ⟨hnd, hind, hsz, hs1, hs2⟩ := h
  have hknotin : k ∉ d.entries.map (·.key) := fun hk => hm (hs2 k hk)
  refine ⟨?_, ?_, ?_, ?_, ?_⟩
  · simp only [List.map_append, List.map_cons, List.map_nil]
    exact List.Nodup.append hnd (List.nodup_singleton k)
      (by intro x hx hxs; simp at hxs; exact hknotin (hxs ▸ hx))
  · exact List.nodup_cons.mpr ⟨hm, hind⟩
  · simp [hsz]
  · intro x hx
    rcases List.mem_cons.mp hx with h1 | h2
    · simp [h1]
    · simp only [List.map_append, List.mem_append]
      exact Or.inl (hs1 x h2)
  · intro x hx
    simp only [List.map_append, List.map_cons, List.map_nil, List.mem_append] at hx
    rcases hx with h1 | h2
    · exact List.mem_cons_of_mem _ (hs2 x h1)
    · simp at h2
      simp [h2]

theorem WF_cons_entry (d : DD K V) (k : K) (v : V) (ci : Int) (co : Option (Cache K))
    (h : d.WF) (hm : k ∉ d.index) :
    (DD.mk (⟨k, v, ci⟩ :: d.entries) (k :: d.index) (d.size + 1) co).WF := by
  obtain ⟨hnd, hind, hsz, hs1, hs2⟩ := h
  have hknotin : k ∉ d.entries.map (·.key) := fun hk => hm (hs2 k hk)
  refine ⟨?_, ?_, ?_, ?_, ?_⟩
  · exact List.nodup_cons.mpr ⟨hknotin, hnd⟩
  · exact List.nodup_cons.mpr ⟨hm, hind⟩
  · simp [hsz]
  · intro x hx
    rcases List.mem_cons.mp hx with h1 | h2
    · simp [h1]
    · exact List.mem_cons_of_mem _ (hs1 x h2)
  · intro x hx
    rcases List.mem_cons.mp hx with h1 | h2
    · simp [h1]
    · exact List.mem_cons_of_mem _ (hs2 x h2)

theorem WF_erase_bykey (d : DD K V) (k : K) (co : Option (Cache K))
    (h : d.WF) (hm : k ∈ d.index) :
    (DD.mk (d.entries.eraseP (fun x => x.key == k)) (d.index.erase k) (d.size - 1) co).WF := by
  obtain ⟨hnd, hind, hsz, hs1, hs2⟩ := h
  have hkin : k ∈ d.entries.map (·.key) := hs1 k hm
  refine ⟨?_, ?_, ?_, ?_, ?_⟩
  · rw [keys_eraseP]
    exact hnd.erase k
  · exact hind.erase k
  · rw [length_eraseP_bykey hkin, hsz]
  · intro x hx
    rw [keys_eraseP, hnd.mem_erase_iff]
    rw [hind.mem_erase_iff] at hx
    exact ⟨hx.1, hs1 x hx.2⟩
  · intro x hx
    rw [keys_eraseP, hnd.mem_erase_iff] at hx
    rw [hind.mem_erase_iff]
    exact ⟨hx.1, hs2 x hx.2⟩

theorem WF_tail (d : DD K V) (e : Entry K V) (rest : List (Entry K V))
    (hent : d.entries = e :: rest) (h : d.WF) (co : Option (Cache K)) :
    (DD.mk rest (d.index.erase e.key) (d.size - 1) co).WF := by
  obtain ⟨hnd, hind, hsz, hs1, hs2⟩ := h
  rw [hent] at hnd hsz hs1 hs2
  simp only [List.map_cons, List.nodup_cons] at hnd
  refine ⟨hnd.2, hind.erase e.key, by simp [hsz], ?_, ?_⟩
  · intro x hx
    rw [hind.mem_erase_iff] at hx
    have := hs1 x hx.2
    rcases List.mem_cons.mp this with h1 | h2
    · exact absurd h1 hx.1
    · exact h2
  · intro x hx
    rw [hind.mem_erase_iff]
    constructor
    · intro hxk
      exact hnd.1 (hxk ▸ hx)
    · exact hs2 x (List.mem_cons_of_mem _ hx)

theorem WF_dropLast (d : DD K V) (e : Entry K V)
    (hl : d.entries.getLast? = some e) (h : d.WF) (co : Option (Cache K)) :
    (DD.mk d.entries.dropLast (d.index.erase e.key) (d.size - 1) co).WF := by
  obtain ⟨hnd, hind, hsz, hs1, hs2⟩ := h
  obtain ⟨ys, hys⟩ := List.getLast?_eq_some_iff.mp hl
  rw [hys] at hnd hsz hs1 hs2 ⊢
  rw [List.dropLast_concat]
  simp only [List.map_append, List.map_cons, List.map_nil] at hnd hs1 hs2
  have hdisj := List.disjoint_of_nodup_append hnd
  have hnd1 := List.Nodup.of_append_left hnd
  refine ⟨hnd1, hind.erase e.key, by simp [hsz], ?_, ?_⟩
  · intro x hx
    rw [hind.mem_erase_iff] at hx
    have := hs1 x hx.2
    rcases List.mem_append.mp this with h1 | h2
    · exact h1
    · simp at h2
      exact absurd h2 hx.1
  · intro x hx
    rw [hind.mem_erase_iff]
    constructor
    · intro hxk
      exact hdisj (hxk ▸ hx) (by simp)
    · exact hs2 x (List.mem_append_left _ hx)

theorem relink_facts (d : DD K V) (k : K) (e : Entry K V)
    (h : d.WF) (hm : k ∈ d.index)
    (hf : d.entries.find? (fun x => x.key == k) = some e) :
    e.key = k ∧
    (∀ x, x ∈ (d.entries.eraseP (fun x => x.key == k)).map (·.key) ↔
      (x ≠ k ∧ x ∈ d.entries.map (·.key))) ∧
    (d.entries.eraseP (fun x => x.key == k)).length + 1 = d.entries.length ∧
    ((d.entries.eraseP (fun x => x.key == k)).map (·.key)).Nodup ∧
    k ∉ (d.entries.eraseP (fun x => x.key == k)).map (·.key) ∧
    k ∈ d.entries.map (·.key) := by
  obtain ⟨hnd, hind, hsz, hs1, hs2⟩ := h
  obtain ⟨hem, hek⟩ := find?_bykey_some hf
  have hkin : k ∈ d.entries.map (·.key) := hs1 k hm
  refine ⟨hek, ?_, ?_, ?_, ?_, hkin⟩
  · intro x
    rw [keys_eraseP, hnd.mem_erase_iff]
  · rw [length_eraseP_bykey hkin]
    have : 0 < d.entries.length := List.length_pos_of_mem hem
    omega
  · rw [keys_eraseP]
    exact hnd.erase k
  · rw [keys_eraseP]
    exact hnd.not_mem_erase

theorem WF_relink_back (d : DD K V) (k : K) (e : Entry K V)
    (h : d.WF) (hm : k ∈ d.index)
    (hf : d.entries.find? (fun x => x.key == k) = some e) :
    (DD.mk (d.entries.eraseP (fun x => x.key == k) ++ [e]) d.index d.size none).WF := by
  obtain ⟨hek, hmemiff, hlen, hnderase, hknot, hkin⟩ := relink_facts d k e h hm hf
  obtain ⟨hnd, hind, hsz, hs1, hs2⟩ := h
  refine ⟨?_, hind, ?_, ?_, ?_⟩
  · simp only [List.map_append, List.map_cons, List.map_nil, hek]
    exact List.Nodup.append hnderase (List.nodup_singleton k)
      (by intro x hx hxs; simp at hxs; exact hknot (hxs ▸ hx))
  · simp only [List.length_append, List.length_cons, List.length_nil]
    omega
  · intro x hx
    simp only [List.map_append, List.map_cons, List.map_nil, hek, List.mem_append]
    by_cases hxe : x = k
    · exact Or.inr (by simp [hxe])
    · exact Or.inl ((hmemiff x).mpr ⟨hxe, hs1 x hx⟩)
  · intro x hx
    simp only [List.map_append, List.map_cons, List.map_nil, hek, List.mem_append] at hx
    rcases hx with h1 | h2
    · exact hs2 x ((hmemiff x).mp h1).2
    · simp at h2
      exact hs2 x (h2 ▸ hkin)

theorem WF_relink_front (d : DD K V) (k : K) (e : Entry K V)
    (h : d.WF) (hm : k ∈ d.index)
    (hf : d.entries.find? (fun x => x.key == k) = some e) :
    (DD.mk (e :: d.entries.eraseP (fun x => x.key == k)) d.index d.size none).WF := by
  obtain ⟨hek, hmemiff, hlen, hnderase, hknot, hkin⟩ := relink_facts d k e h hm hf
  obtain ⟨hnd, hind, hsz, hs1, hs2⟩ := h
  refine ⟨?_, hind, ?_, ?_, ?_⟩
  · simp only [List.map_cons, hek]
    exact List.nodup_cons.mpr ⟨hknot, hnderase⟩
  · simp only [List.length_cons]
    omega
  · intro x hx
    simp only [List.map_cons, hek, List.mem_cons]
    by_cases hxe : x = k
    · exact Or.inl hxe
    · exact Or.inr ((hmemiff x).mpr ⟨hxe, hs1 x hx⟩)
  · intro x hx
    simp only [List.map_cons, hek, List.mem_cons] at hx
    rcases hx with h1 | h2
    · exact hs2 x (h1 ▸ hkin)
    · exact hs2 x ((hmemiff x).mp h2).2

/-!
Position-cache mirror preservation.
-/

theorem Cache.Mirrors.length_eq {c : Cache K} {l : List (Entry K V)} (h : c.Mirrors l) :
    c.slots.length = c.offset + l.length := by
  obtain ⟨h1, h2, h3, h4⟩ := h
  have hlen := congrArg List.length h3
  simp only [List.length_drop, List.length_map] at hlen
  omega

theorem Mirrors_update {c : Cache K} {l : List (Entry K V)} (h : c.Mirrors l) (k : K) (v : V) :
    c.Mirrors (l.map (fun e => if e.key = k then { e with value := v } else e)) := by
  obtain ⟨h1, h2, h3, h4⟩ := h
  refine ⟨h1, h2, ?_, ?_⟩
  · rw [keys_update]
    exact h3
  · intro i
    have hi : (i : Nat) < l.length := by simpa using i.isLt
    have hv := h4 ⟨i, hi⟩
    simp only [List.get_eq_getElem] at hv ⊢
    simp only [List.getElem_map]
    by_cases hck : (l[(i : Nat)]).key = k <;> simp [hck, hv]

theorem Mirrors_append {c : Cache K} {l : List (Entry K V)} (h : c.Mirrors l) (k : K) (v : V)
    (cap2 : Nat) (hcap : c.slots.length + 1 ≤ cap2) :
    (Cache.mk (c.slots ++ [k]) cap2 c.offset).Mirrors
      (l ++ [⟨k, v, (c.slots.length : Int)⟩]) := by
  have hlen := h.length_eq
  obtain ⟨h1, h2, h3, h4⟩ := h
  refine ⟨?_, ?_, ?_, ?_⟩
  · simp only [List.length_append, List.length_cons, List.length_nil]
    omega
  · simpa using hcap
  · rw [List.drop_append_of_le_length h1, h3, List.map_append]
    rfl
  · intro i
    have hi : (i : Nat) < l.length + 1 := by simpa using i.isLt
    simp only [List.get_eq_getElem]
    rcases Nat.lt_or_ge (i : Nat) l.length with hlt | hge
    · rw [List.getElem_append_left (by simpa using hlt)]
      have hv := h4 ⟨i, hlt⟩
      simp only [List.get_eq_getElem] at hv
      exact hv
    · have hieq : (i : Nat) = l.length := by omega
      rw [List.getElem_append_right (by simpa using hge)]
      simp only [hieq, Nat.sub_self, List.getElem_cons_zero]
      simp only [hlen, hieq]
      push_cast
      ring

theorem Mirrors_headpop {c : Cache K} {e : Entry K V} {rest : List (Entry K V)}
    (h : c.Mirrors (e :: rest)) :
    (Cache.mk c.slots c.capacity (c.offset + 1)).Mirrors rest := by
  have hlen := h.length_eq
  obtain ⟨h1, h2, h3, h4⟩ := h
  refine ⟨?_, h2, ?_, ?_⟩
  · show c.offset + 1 ≤ c.slots.length
    simp only [List.length_cons] at hlen
    omega
  · have : c.slots.drop (c.offset + 1) = (c.slots.drop c.offset).drop 1 := by
      rw [List.drop_drop]
    rw [this, h3]
    rfl
  · intro i
    have hi : (i : Nat) + 1 < (e :: rest).length := by simpa using i.isLt
    have hv := h4 ⟨(i : Nat) + 1, hi⟩
    simp only [List.get_eq_getElem, List.getElem_cons_succ] at hv
    simp only [List.get_eq_getElem]
    rw [hv]
    push_cast
    ring

theorem Mirrors_tailpop {c : Cache K} {l : List (Entry K V)} (h : c.Mirrors l)
    (hne : l ≠ []) :
    (Cache.mk c.slots.dropLast c.capacity c.offset).Mirrors l.dropLast := by
  have hlen := h.length_eq
  have hlp : 0 < l.length := List.length_pos.mpr hne
  obtain ⟨h1, h2, h3, h4⟩ := h
  refine ⟨?_, ?_, ?_, ?_⟩
  · simp only [List.length_dropLast]
    omega
  · simp only [List.length_dropLast]
    omega
  · show (c.slots.dropLast).drop c.offset = l.dropLast.map (·.key)
    rw [List.map_dropLast, ← h3, List.dropLast_eq_take, List.dropLast_eq_take,
        List.drop_take, List.length_drop]
    congr 1
    omega
  · intro i
    have hi : (i : Nat) < l.length - 1 := by simpa using i.isLt
    have hi2 : (i : Nat) < l.length := by omega
    have hv := h4 ⟨(i : Nat), hi2⟩
    simp only [List.get_eq_getElem] at hv ⊢
    rw [List.getElem_dropLast]
    exact hv

/-!
Reductions of `cache_ensure_capacity` and `setitem`.
-/

theorem ensure_notfull {c : Cache K} (g : Bool) (h : c.slots.length < c.capacity) :
    cache_ensure_capacity g c = some c := by
  unfold cache_ensure_capacity
  rw [if_pos h]

theorem ensure_full_ok {c : Cache K} (h : ¬ c.slots.length < c.capacity) :
    cache_ensure_capacity true c =
      some (Cache.mk c.slots (if c.capacity * 2 < 8 then 8 else c.capacity * 2) c.offset) := by
  unfold cache_ensure_capacity
  rw [if_neg h]
  simp

theorem ensure_full_fail {c : Cache K} (h : ¬ c.slots.length < c.capacity) :
    cache_ensure_capacity false c = none := by
  unfold cache_ensure_capacity
  rw [if_neg h]
  simp

theorem ensure_capacity_le {c c2 : Cache K} (g : Bool)
    (h : cache_ensure_capacity g c = some c2) (hle : c.slots.length ≤ c.capacity) :
    c2.slots = c.slots ∧ c2.offset = c.offset ∧ c.slots.length + 1 ≤ c2.capacity := by
  by_cases hf : c.slots.length < c.capacity
  · rw [ensure_notfull g hf] at h
    obtain rfl := Option.some_inj.mp h
    exact ⟨rfl, rfl, hf⟩
  · cases g with
    | false =>
      rw [ensure_full_fail hf] at h
      simp at h
    | true =>
      rw [ensure_full_ok hf] at h
      obtain rfl := Option.some_inj.mp h
      refine ⟨rfl, rfl, ?_⟩
      show c.slots.length + 1 ≤ (if c.capacity * 2 < 8 then 8 else c.capacity * 2)
      by_cases h8 : c.capacity * 2 < 8
      · rw [if_pos h8]
        omega
      · rw [if_neg h8]
        omega

theorem setitem_mem_eq (p : AllocPlan) (d : DD K V) (k : K) (v : V) (hm : k ∈ d.index) :
    d.setitem p k v =
      ({ d with
          entries := d.entries.map (fun e => if e.key = k then { e with value := v } else e) },
       Except.ok ()) := by
  unfold DD.setitem
  rw [if_pos hm]

theorem setitem_new_none (p : AllocPlan) (d : DD K V) (k : K) (v : V)
    (hm : k ∉ d.index) (he : p.entryOk = true) (hpc : p.capsuleOk = true)
    (hpd : p.dictSetOk = true) (hc : d.cache = none) :
    d.setitem p k v =
      (DD.mk (d.entries ++ [⟨k, v, -1⟩]) (k :: d.index) (d.size + 1) none,
       Except.ok ()) := by
  unfold DD.setitem
  rw [if_neg hm, if_neg (by simp [he]), hc]
  rw [if_neg (by simp [hpc, hpd])]

theorem setitem_new_some_ok (p : AllocPlan) (d : DD K V) (k : K) (v : V) (c c2 : Cache K)
    (hm : k ∉ d.index) (he : p.entryOk = true) (hpc : p.capsuleOk = true)
    (hpd : p.dictSetOk = true) (hc : d.cache = some c)
    (hens : cache_ensure_capacity p.growOk c = some c2) :
    d.setitem p k v =
      (DD.mk (d.entries ++ [⟨k, v, (c2.slots.length : Int)⟩]) (k :: d.index) (d.size + 1)
        (some (Cache.mk (c2.slots ++ [k]) c2.capacity c2.offset)),
       Except.ok ()) := by
  unfold DD.setitem
  rw [if_neg hm, if_neg (by simp [he]), hc]
  simp only [hens]
  rw [if_neg (by simp [hpc, hpd])]

theorem setitem_new_some_fail (p : AllocPlan) (d : DD K V) (k : K) (v : V) (c : Cache K)
    (hm : k ∉ d.index) (he : p.entryOk = true) (hpc : p.capsuleOk = true)
    (hpd : p.dictSetOk = true) (hc : d.cache = some c)
    (hens : cache_ensure_capacity p.growOk c = none) :
    d.setitem p k v =
      (DD.mk (d.entries ++ [⟨k, v, -1⟩]) (k :: d.index) (d.size + 1) none,
       Except.ok ()) := by
  unfold DD.setitem
  rw [if_neg hm, if_neg (by simp [he]), hc]
  simp only [hens]
  rw [if_neg (by simp [hpc, hpd])]

/-!
Rebuild correctness.
-/

theorem enumIdx_length (l : List (Entry K V)) :
    (l.enum.map (fun p => { p.2 with cache_idx := (p.1 : Int) })).length = l.length := by
  simp

theorem enumIdx_getElem (l : List (Entry K V)) (i : Nat) (hi : i < l.length)
    (hi2 : i < (l.enum.map (fun p => { p.2 with cache_idx := (p.1 : Int) })).length) :
    (l.enum.map (fun p => { p.2 with cache_idx := (p.1 : Int) }))[i] =
      { l[i] with cache_idx := (i : Int) } := by
  simp

theorem enumIdx_keys (l : List (Entry K V)) :
    (l.enum.map (fun p => { p.2 with cache_idx := (p.1 : Int) })).map (·.key) =
      l.map (·.key) := by
  apply List.ext_getElem
  · simp
  · intro i h1 h2
    simp

theorem rebuild_cache_WF (d : DD K V) (hw : d.WF) : (d.rebuild_cache).WF := by
  obtain ⟨hnd, hind, hsz, hs1, hs2⟩ := hw
  unfold DD.rebuild_cache
  by_cases hz : d.size = 0
  · rw [if_pos hz]
    exact ⟨hnd, hind, hsz, hs1, hs2⟩
  · rw [if_neg hz]
    refine ⟨?_, hind, ?_, ?_, ?_⟩
    · rw [enumIdx_keys]
      exact hnd
    · rw [enumIdx_length]
      exact hsz
    · intro x hx
      rw [enumIdx_keys]
      exact hs1 x hx
    · intro x hx
      rw [enumIdx_keys] at hx
      exact hs2 x hx

theorem rebuild_cache_CacheOk (d : DD K V) (hw : d.WF) : (d.rebuild_cache).CacheOk := by
  obtain ⟨hnd, hind, hsz, hs1, hs2⟩ := hw
  unfold DD.rebuild_cache
  by_cases hz : d.size = 0
  · rw [if_pos hz]
    intro c hc
    simp [DD.invalidate_cache] at hc
  · rw [if_neg hz]
    intro c hc
    simp only [Option.some_inj] at hc
    subst hc
    refine ⟨?_, ?_, ?_, ?_⟩
    · simp
    · simp [hsz]
    · simp only [List.drop_zero]
      rw [enumIdx_keys]
    · intro i
      have hi : (i : Nat) < d.entries.length := by
        have := i.isLt
        simpa [enumIdx_length] using this
      simp only [List.get_eq_getElem]
      rw [enumIdx_getElem d.entries (i : Nat) hi (by simpa using hi)]
      simp

theorem rebuild_cache_values (d : DD K V) (i : Nat) (hi : i < d.entries.length)
    (hz : ¬ d.size = 0) (hi2 : i < (d.rebuild_cache).entries.length) :
    (d.rebuild_cache).entries[i] = { d.entries[i] with cache_idx := (i : Int) } := by
  simp only [DD.rebuild_cache, if_neg hz] at hi2 ⊢
  exact enumIdx_getElem d.entries i hi hi2

/-!
Characterizations of `move_to_end`.
-/

theorem move_absent (d : DD K V) (k : K) (last : Bool) (hm : k ∉ d.index) :
    d.move_to_end k last = (d, Except.error Err.keyError) := by
  unfold DD.move_to_end
  rw [if_neg hm]

theorem move_noop_back (d : DD K V) (k : K) (e : Entry K V) (hm : k ∈ d.index)
    (hf : d.entries.find? (fun x => x.key == k) = some e)
    (hend : d.entries.getLast?.map (·.key) = some k) :
    d.move_to_end k true = (d, Except.ok ()) := by
  unfold DD.move_to_end
  rw [if_pos hm]
  simp only [hf, hend]
  simp

theorem move_noop_front (d : DD K V) (k : K) (e : Entry K V) (hm : k ∈ d.index)
    (hf : d.entries.find? (fun x => x.key == k) = some e)
    (hend : d.entries.head?.map (·.key) = some k) :
    d.move_to_end k false = (d, Except.ok ()) := by
  unfold DD.move_to_end
  rw [if_pos hm]
  simp only [hf, hend]
  simp

theorem move_relink_back (d : DD K V) (k : K) (e : Entry K V) (hm : k ∈ d.index)
    (hf : d.entries.find? (fun x => x.key == k) = some e)
    (hend : ¬ d.entries.getLast?.map (·.key) = some k) :
    d.move_to_end k true =
      (DD.mk (d.entries.eraseP (fun x => x.key == k) ++ [e]) d.index d.size none,
       Except.ok ()) := by
  unfold DD.move_to_end
  rw [if_pos hm]
  simp only [hf, hend]
  simp

theorem move_relink_front (d : DD K V) (k : K) (e : Entry K V) (hm : k ∈ d.index)
    (hf : d.entries.find? (fun x => x.key == k) = some e)
    (hend : ¬ d.entries.head?.map (·.key) = some k) :
    d.move_to_end k false =
      (DD.mk (e :: d.entries.eraseP (fun x => x.key == k)) d.index d.size none,
       Except.ok ()) := by
  unfold DD.move_to_end
  rw [if_pos hm]
  simp only [hf, hend]
  simp

/-!
Operation-level preservation of well-formedness.
-/

theorem WF_clear (d : DD K V) : (d.clearAll).WF := by
  refine ⟨?_, ?_, ?_, ?_, ?_⟩ <;> simp [DD.clearAll]

theorem WF_setitem (p : AllocPlan) (d : DD K V) (k : K) (v : V)
    (hpc : p.capsuleOk = true) (hpd : p.dictSetOk = true) (hw : d.WF) :
    ((d.setitem p k v).1).WF := by
  by_cases hm : k ∈ d.index
  · rw [setitem_mem_eq p d k v hm]
    obtain ⟨hnd, hind, hsz, hs1, hs2⟩ := hw
    refine ⟨?_, hind, ?_, ?_, ?_⟩
    · rw [keys_update]
      exact hnd
    · rw [List.length_map]
      exact hsz
    · intro x hx
      rw [keys_update]
      exact hs1 x hx
    · intro x hx
      rw [keys_update] at hx
      exact hs2 x hx
  · by_cases he : p.entryOk = true
    · cases hcache : d.cache with
      | none =>
        rw [setitem_new_none p d k v hm he hpc hpd hcache]
        exact WF_append_entry d k v (-1) none hw hm
      | some c =>
        cases hens : cache_ensure_capacity p.growOk c with
        | some c2 =>
          rw [setitem_new_some_ok p d k v c c2 hm he hpc hpd hcache hens]
          exact WF_append_entry d k v _ _ hw hm
        | none =>
          rw [setitem_new_some_fail p d k v c hm he hpc hpd hcache hens]
          exact WF_append_entry d k v (-1) none hw hm
    · have hef : p.entryOk = false := by simpa using he
      unfold DD.setitem
      rw [if_neg hm, if_pos hef]
      exact hw

theorem WF_delitem (d : DD K V) (k : K) (hw : d.WF) : ((d.delitem k).1).WF := by
  by_cases hm : k ∈ d.index
  · unfold DD.delitem
    rw [if_pos hm]
    exact WF_erase_bykey d k none hw hm
  · unfold DD.delitem
    rw [if_neg hm]
    exact hw

theorem WF_popleft (d : DD K V) (hw : d.WF) : ((d.popleft).1).WF := by
  cases hent : d.entries with
  | nil =>
    simp only [DD.popleft, hent]
    exact hw
  | cons e rest =>
    simp only [DD.popleft, hent]
    exact WF_tail d e rest hent hw _

theorem WF_popleftitem (d : DD K V) (hw : d.WF) : ((d.popleftitem).1).WF := by
  cases hent : d.entries with
  | nil =>
    simp only [DD.popleftitem, hent]
    exact hw
  | cons e rest =>
    simp only [DD.popleftitem, hent]
    exact WF_tail d e rest hent hw _

theorem WF_popright (d : DD K V) (dflt : Option V) (hw : d.WF) :
    ((d.popright dflt).1).WF := by
  cases hl : d.entries.getLast? with
  | none =>
    cases dflt <;> simp only [DD.popright, hl] <;> exact hw
  | some e =>
    simp only [DD.popright, hl]
    exact WF_dropLast d e hl hw _

theorem WF_popitem (d : DD K V) (hw : d.WF) : ((d.popitem).1).WF := by
  cases hl : d.entries.getLast? with
  | none =>
    simp only [DD.popitem, hl]
    exact hw
  | some e =>
    simp only [DD.popitem, hl]
    exact WF_dropLast d e hl hw _

theorem WF_pop_by_key (d : DD K V) (k : K) (dflt : Option V) (hw : d.WF) :
    ((d.pop_by_key k dflt).1).WF := by
  by_cases hm : k ∈ d.index
  · cases hf : d.entries.find? (fun e => e.key == k) with
    | none =>
      simp only [DD.pop_by_key, if_pos hm, hf]
      exact hw
    | some e =>
      simp only [DD.pop_by_key, if_pos hm, hf]
      exact WF_erase_bykey d k none hw hm
  · cases dflt <;> simp only [DD.pop_by_key, if_neg hm] <;> exact hw

theorem WF_pop (d : DD K V) (key : Option K) (dflt : Option V) (hw : d.WF) :
    ((d.pop key dflt).1).WF := by
  cases key with
  | none => exact WF_popright d dflt hw
  | some k => exact WF_pop_by_key d k dflt hw

theorem WF_appendleft (p : AllocPlan) (d : DD K V) (k : K) (v : V)
    (hpc : p.capsuleOk = true) (hpd : p.dictSetOk = true) (hw : d.WF) :
    ((d.appendleft p k v).1).WF := by
  by_cases hm : k ∈ d.index
  · unfold DD.appendleft
    rw [if_pos hm]
    exact hw
  · by_cases he : p.entryOk = true
    · unfold DD.appendleft
      rw [if_neg hm, if_neg (by simp [he]), if_neg (by simp [hpc, hpd])]
      exact WF_cons_entry d k v (-1) none hw hm
    · have hef : p.entryOk = false := by simpa using he
      unfold DD.appendleft
      rw [if_neg hm, if_pos hef]
      exact hw

theorem WF_move_to_end (d : DD K V) (k : K) (last : Bool) (hw : d.WF) :
    ((d.move_to_end k last).1).WF := by
  by_cases hm : k ∈ d.index
  · cases hf : d.entries.find? (fun e => e.key == k) with
    | none =>
      unfold DD.move_to_end
      rw [if_pos hm]
      simp only [hf]
      exact hw
    | some e =>
      cases last with
      | true =>
        by_cases hend : d.entries.getLast?.map (·.key) = some k
        · rw [move_noop_back d k e hm hf hend]
          exact hw
        · rw [move_relink_back d k e hm hf hend]
          exact WF_relink_back d k e hw hm hf
      | false =>
        by_cases hend : d.entries.head?.map (·.key) = some k
        · rw [move_noop_front d k e hm hf hend]
          exact hw
        · rw [move_relink_front d k e hm hf hend]
          exact WF_relink_front d k e hw hm hf
  · rw [move_absent d k last hm]
    exact hw

/-!
Operation-level preservation of the cache invariant.
-/

theorem CacheOk_mk_none (es : List (Entry K V)) (ix : List K) (n : Nat) :
    (DD.mk es ix n none).CacheOk := by
  intro c hc
  simp at hc

theorem CacheOk_setitem (p : AllocPlan) (d : DD K V) (k : K) (v : V)
    (h : d.CacheOk) (hpc : p.capsuleOk = true) (hpd : p.dictSetOk = true) :
    ((d.setitem p k v).1).CacheOk := by
  by_cases hm : k ∈ d.index
  · rw [setitem_mem_eq p d k v hm]
    intro c hc
    exact Mirrors_update (h c hc) k v
  · by_cases he : p.entryOk = true
    · cases hcache : d.cache with
      | none =>
        rw [setitem_new_none p d k v hm he hpc hpd hcache]
        exact CacheOk_mk_none _ _ _
      | some c =>
        cases hens : cache_ensure_capacity p.growOk c with
        | none =>
          rw [setitem_new_some_fail p d k v c hm he hpc hpd hcache hens]
          exact CacheOk_mk_none _ _ _
        | some c2 =>
          rw [setitem_new_some_ok p d k v c c2 hm he hpc hpd hcache hens]
          intro c3 hc3
          simp only [Option.some_inj] at hc3
          subst hc3
          have hmir := h c hcache
          obtain ⟨hs, ho, hcap⟩ := ensure_capacity_le p.growOk hens hmir.2.1
          rw [hs, ho]
          exact Mirrors_append hmir k v c2.capacity (hs ▸ hcap)
    · have hef : p.entryOk = false := by simpa using he
      unfold DD.setitem
      rw [if_neg hm, if_pos hef]
      exact h

theorem CacheOk_delitem (d : DD K V) (k : K) (h : d.CacheOk) :
    ((d.delitem k).1).CacheOk := by
  by_cases hm : k ∈ d.index
  · unfold DD.delitem
    rw [if_pos hm]
    exact CacheOk_mk_none _ _ _
  · unfold DD.delitem
    rw [if_neg hm]
    exact h

theorem CacheOk_popleft (d : DD K V) (h : d.CacheOk) : ((d.popleft).1).CacheOk := by
  cases hent : d.entries with
  | nil =>
    simp only [DD.popleft, hent]
    exact h
  | cons e rest =>
    simp only [DD.popleft, hent]
    intro c hc
    cases hcache : d.cache with
    | none =>
      simp only [hcache] at hc
      exact absurd hc (by simp)
    | some c0 =>
      simp only [hcache, Option.some_inj] at hc
      subst hc
      have hm := h c0 hcache
      rw [hent] at hm
      exact Mirrors_headpop hm

theorem CacheOk_popleftitem (d : DD K V) (h : d.CacheOk) : ((d.popleftitem).1).CacheOk := by
  cases hent : d.entries with
  | nil =>
    simp only [DD.popleftitem, hent]
    exact h
  | cons e rest =>
    simp only [DD.popleftitem, hent]
    intro c hc
    cases hcache : d.cache with
    | none =>
      simp only [hcache] at hc
      exact absurd hc (by simp)
    | some c0 =>
      simp only [hcache, Option.some_inj] at hc
      subst hc
      have hm := h c0 hcache
      rw [hent] at hm
      exact Mirrors_headpop hm

theorem CacheOk_popright (d : DD K V) (dflt : Option V) (h : d.CacheOk) :
    ((d.popright dflt).1).CacheOk := by
  cases hl : d.entries.getLast? with
  | none =>
    cases dflt <;> simp only [DD.popright, hl] <;> exact h
  | some e =>
    simp only [DD.popright, hl]
    intro c hc
    cases hcache : d.cache with
    | none =>
      simp only [hcache] at hc
      exact absurd hc (by simp)
    | some c0 =>
      simp only [hcache, Option.some_inj] at hc
      subst hc
      have hm := h c0 hcache
      have hne : d.entries ≠ [] := by
        intro h0
        rw [h0] at hl
        simp at hl
      have hpos : 0 < c0.slots.length := by
        have hle := hm.length_eq
        have : 0 < d.entries.length := List.length_pos.mpr hne
        omega
      rw [if_pos hpos]
      exact Mirrors_tailpop hm hne

theorem CacheOk_popitem (d : DD K V) (h : d.CacheOk) : ((d.popitem).1).CacheOk := by
  cases hl : d.entries.getLast? with
  | none =>
    simp only [DD.popitem, hl]
    exact h
  | some e =>
    simp only [DD.popitem, hl]
    intro c hc
    cases hcache : d.cache with
    | none =>
      simp only [hcache] at hc
      exact absurd hc (by simp)
    | some c0 =>
      simp only [hcache, Option.some_inj] at hc
      subst hc
      have hm := h c0 hcache
      have hne : d.entries ≠ [] := by
        intro h0
        rw [h0] at hl
        simp at hl
      have hpos : 0 < c0.slots.length := by
        have hle := hm.length_eq
        have : 0 < d.entries.length := List.length_pos.mpr hne
        omega
      rw [if_pos hpos]
      exact Mirrors_tailpop hm hne

theorem CacheOk_pop_by_key (d : DD K V) (k : K) (dflt : Option V) (h : d.CacheOk) :
    ((d.pop_by_key k dflt).1).CacheOk := by
  by_cases hm : k ∈ d.index
  · cases hf : d.entries.find? (fun e => e.key == k) with
    | none =>
      simp only [DD.pop_by_key, if_pos hm, hf]
      exact h
    | some e =>
      simp only [DD.pop_by_key, if_pos hm, hf]
      exact CacheOk_mk_none _ _ _
  · cases dflt <;> simp only [DD.pop_by_key, if_neg hm] <;> exact h

theorem CacheOk_pop (d : DD K V) (key : Option K) (dflt : Option V) (h : d.CacheOk) :
    ((d.pop key dflt).1).CacheOk := by
  cases key with
  | none => exact CacheOk_popright d dflt h
  | some k => exact CacheOk_pop_by_key d k dflt h

theorem CacheOk_appendleft (p : AllocPlan) (d : DD K V) (k : K) (v : V)
    (h : d.CacheOk) (hpc : p.capsuleOk = true) (hpd : p.dictSetOk = true) :
    ((d.appendleft p k v).1).CacheOk := by
  by_cases hm : k ∈ d.index
  · unfold DD.appendleft
    rw [if_pos hm]
    exact h
  · by_cases he : p.entryOk = true
    · unfold DD.appendleft
      rw [if_neg hm, if_neg (by simp [he]), if_neg (by simp [hpc, hpd])]
      exact CacheOk_mk_none _ _ _
    · have hef : p.entryOk = false := by simpa using he
      unfold DD.appendleft
      rw [if_neg hm, if_pos hef]
      exact h

theorem CacheOk_move_to_end (d : DD K V) (k : K) (last : Bool) (h : d.CacheOk) :
    ((d.move_to_end k last).1).CacheOk := by
  by_cases hm : k ∈ d.index
  · cases hf : d.entries.find? (fun e => e.key == k) with
    | none =>
      unfold DD.move_to_end
      rw [if_pos hm]
      simp only [hf]
      exact h
    | some e =>
      cases last with
      | true =>
        by_cases hend : d.entries.getLast?.map (·.key) = some k
        · rw [move_noop_back d k e hm hf hend]
          exact h
        · rw [move_relink_back d k e hm hf hend]
          exact CacheOk_mk_none _ _ _
      | false =>
        by_cases hend : d.entries.head?.map (·.key) = some k
        · rw [move_noop_front d k e hm hf hend]
          exact h
        · rw [move_relink_front d k e hm hf hend]
          exact CacheOk_mk_none _ _ _
  · rw [move_absent d k last hm]
    exact h

theorem CacheOk_clear (d : DD K V) : (d.clearAll).CacheOk := by
  intro c hc
  simp [DD.clearAll] at hc

theorem atIndex_fst (d : DD K V) (i : Int) :
    (d.atIndex i).1 = if d.cache.isSome then d else d.rebuild_cache := by
  simp only [DD.atIndex]
  split
  · rfl
  · split <;> split <;> (try rfl) <;> (split <;> rfl)

theorem WF_atIndex (d : DD K V) (i : Int) (hw : d.WF) : ((d.atIndex i).1).WF := by
  rw [atIndex_fst]
  by_cases hc : d.cache.isSome
  · rw [if_pos hc]
    exact hw
  · rw [if_neg hc]
    exact rebuild_cache_WF d hw

theorem CacheOk_atIndex (d : DD K V) (i : Int) (hw : d.WF) (h : d.CacheOk) :
    ((d.atIndex i).1).CacheOk := by
  rw [atIndex_fst]
  by_cases hc : d.cache.isSome
  · rw [if_pos hc]
    exact h
  · rw [if_neg hc]
    exact rebuild_cache_CacheOk d hw

theorem Invariant_step (d : DD K V) (op : Op K V) (h : d.Invariant) :
    ((d.step op).1).Invariant := by
  obtain ⟨hw, hc⟩ := h
  cases op with
  | getOp k v0 => exact ⟨hw, hc⟩
  | getitemOp k => exact ⟨hw, hc⟩
  | setitemOp k v =>
    exact ⟨WF_setitem allOk d k v rfl rfl hw, CacheOk_setitem allOk d k v hc rfl rfl⟩
  | delitemOp k => exact ⟨WF_delitem d k hw, CacheOk_delitem d k hc⟩
  | containsOp k => exact ⟨hw, hc⟩
  | peekleftOp => exact ⟨hw, hc⟩
  | peekleftitemOp => exact ⟨hw, hc⟩
  | peekleftkeyOp => exact ⟨hw, hc⟩
  | peekOp => exact ⟨hw, hc⟩
  | peekitemOp => exact ⟨hw, hc⟩
  | popleftOp => exact ⟨WF_popleft d hw, CacheOk_popleft d hc⟩
  | popleftitemOp => exact ⟨WF_popleftitem d hw, CacheOk_popleftitem d hc⟩
  | popOp key dflt => exact ⟨WF_pop d key dflt hw, CacheOk_pop d key dflt hc⟩
  | popitemOp => exact ⟨WF_popitem d hw, CacheOk_popitem d hc⟩
  | appendleftOp k v =>
    exact ⟨WF_appendleft allOk d k v rfl rfl hw, CacheOk_appendleft allOk d k v hc rfl rfl⟩
  | moveToEndOp k last =>
    exact ⟨WF_move_to_end d k last hw, CacheOk_move_to_end d k last hc⟩
  | clearOp => exact ⟨WF_clear d, CacheOk_clear d⟩
  | iterOp => exact ⟨hw, hc⟩
  | reversedOp => exact ⟨hw, hc⟩
  | eqOp other => exact ⟨hw, hc⟩
  | atOp i => exact ⟨WF_atIndex d i hw, CacheOk_atIndex d i hw hc⟩

/-!
Correctness of positional access.
-/

theorem atIndex_some_eq (d : DD K V) (c : Cache K) (hc : d.cache = some c) (i : Int) :
    d.atIndex i =
      (let logical : Int := (c.slots.length : Int) - (c.offset : Int)
       let j := if i < 0 then i + logical else i
       if j < 0 ∨ logical ≤ j then (d, Except.error Err.indexError)
       else
         match (c.slots.get? (c.offset + j.toNat)).bind
                 (fun k => d.entries.find? (fun e => e.key == k)) with
         | some e => (d, Except.ok e.value)
         | none => (d, Except.error Err.indexError)) := by
  simp [DD.atIndex, hc]

theorem atIndex_rebuild (d : DD K V) (hc : d.cache = none) (i : Int) :
    d.atIndex i = (d.rebuild_cache).atIndex i := by
  by_cases hz : d.size = 0
  · simp [DD.atIndex, DD.rebuild_cache, DD.invalidate_cache, hc, hz]
  · simp [DD.atIndex, DD.rebuild_cache, DD.invalidate_cache, hc, hz]

theorem slot_find (d : DD K V) (c : Cache K)
    (hnd : (d.entries.map (·.key)).Nodup) (hmir : c.Mirrors d.entries)
    (n : Nat) (hn : n < d.entries.length) :
    (c.slots.get? (c.offset + n)).bind
        (fun k => d.entries.find? (fun e => e.key == k)) =
      some (d.entries[n]) := by
  obtain ⟨h1, h2, h3, h4⟩ := hmir
  have hslot : c.slots[c.offset + n]? = some (d.entries[n].key) := by
    rw [← List.getElem?_drop, h3]
    simp [List.getElem?_eq_getElem, hn]
  rw [List.get?_eq_getElem?, hslot]
  simp only [Option.some_bind]
  exact find?_key_getElem d.entries hnd n hn

theorem atIndex_ok_cached (d : DD K V) (c : Cache K) (hc : d.cache = some c)
    (hw : d.WF) (hmir : c.Mirrors d.entries) (i : Nat) (hi : i < d.entries.length) :
    d.atIndex (i : Int) = (d, Except.ok (d.entries[i].value)) := by
  rw [atIndex_some_eq d c hc]
  have hlen := hmir.length_eq
  have hlog : (c.slots.length : Int) - (c.offset : Int) = (d.entries.length : Int) := by
    omega
  simp only [hlog]
  rw [if_neg (by omega)]
  rw [if_neg (by omega)]
  have ht : ((i : Int)).toNat = i := Int.toNat_natCast i
  rw [ht, slot_find d c hw.1 hmir i hi]

theorem atIndex_err_cached (d : DD K V) (c : Cache K) (hc : d.cache = some c)
    (hw : d.WF) (hmir : c.Mirrors d.entries) (i : Int) :
    ((d.atIndex i).2 = Except.error Err.indexError ↔
      ((if i < 0 then i + (d.entries.length : Int) else i) < 0 ∨
        (d.entries.length : Int) ≤ (if i < 0 then i + (d.entries.length : Int) else i))) := by
  rw [atIndex_some_eq d c hc]
  have hlen := hmir.length_eq
  have hlog : (c.slots.length : Int) - (c.offset : Int) = (d.entries.length : Int) := by
    omega
  simp only [hlog]
  by_cases hb : (if i < 0 then i + (d.entries.length : Int) else i) < 0 ∨
      (d.entries.length : Int) ≤ (if i < 0 then i + (d.entries.length : Int) else i)
  · rw [if_pos hb]
    simpa using hb
  · rw [if_neg hb]
    have hj0 : 0 ≤ (if i < 0 then i + (d.entries.length : Int) else i) := by omega
    have hjlt : (if i < 0 then i + (d.entries.length : Int) else i) <
        (d.entries.length : Int) := by omega
    have hn : ((if i < 0 then i + (d.entries.length : Int) else i)).toNat <
        d.entries.length := by omega
    rw [slot_find d c hw.1 hmir _ hn]
    simpa using hb

theorem atIndex_ok (d : DD K V) (hw : d.WF) (hco : d.CacheOk)
    (i : Nat) (hi : i < d.entries.length) :
    (d.atIndex (i : Int)).2 = Except.ok (d.entries[i].value) ∧
      ((d.atIndex (i : Int)).1.cache).isSome = true := by
  cases hcache : d.cache with
  | some c =>
    rw [atIndex_ok_cached d c hcache hw (hco c hcache) i hi]
    simp [hcache]
  | none =>
    have hz : ¬ d.size = 0 := by
      have := hw.2.2.1
      omega
    rw [atIndex_rebuild d hcache]
    have hw2 := rebuild_cache_WF d hw
    have hco2 := rebuild_cache_CacheOk d hw
    have hcache2 : (d.rebuild_cache).cache =
        some (Cache.mk (d.entries.map (·.key)) d.size 0) := by
      simp [DD.rebuild_cache, hz]
    have hi2 : i < (d.rebuild_cache).entries.length := by
      simp [DD.rebuild_cache, hz, enumIdx_length]
      omega
    rw [atIndex_ok_cached (d.rebuild_cache) _ hcache2 hw2 (hco2 _ hcache2) i hi2]
    have hv : (d.rebuild_cache).entries[i] =
        { d.entries[i] with cache_idx := (i : Int) } := rebuild_cache_values d i hi hz hi2
    simp [hv, hcache2]

theorem atIndex_err_iff (d : DD K V) (hw : d.WF) (hco : d.CacheOk) (i : Int) :
    ((d.atIndex i).2 = Except.error Err.indexError ↔
      ((if i < 0 then i + (d.size : Int) else i) < 0 ∨
        (d.size : Int) ≤ (if i < 0 then i + (d.size : Int) else i))) := by
  have hsz := hw.2.2.1
  cases hcache : d.cache with
  | some c =>
    rw [hsz]
    exact atIndex_err_cached d c hcache hw (hco c hcache) i
  | none =>
    rw [atIndex_rebuild d hcache]
    by_cases hz : d.size = 0
    · have hrc : (d.rebuild_cache) = d.invalidate_cache := by
        simp [DD.rebuild_cache, hz]
      rw [hrc]
      have : ((d.invalidate_cache).atIndex i).2 = Except.error Err.indexError := by
        simp [DD.atIndex, DD.invalidate_cache, DD.rebuild_cache, hz]
      rw [this, hz]
      push_cast
      constructor
      · intro _
        by_cases hi : i < 0
        · rw [if_pos hi]
          omega
        · rw [if_neg hi]
          omega
      · intro _
        rfl
    · have hw2 := rebuild_cache_WF d hw
      have hco2 := rebuild_cache_CacheOk d hw
      have hcache2 : (d.rebuild_cache).cache =
          some (Cache.mk (d.entries.map (·.key)) d.size 0) := by
        simp [DD.rebuild_cache, hz]
      have hlen2 : (d.rebuild_cache).entries.length = d.entries.length := by
        simp [DD.rebuild_cache, hz, enumIdx_length]
      rw [atIndex_err_cached (d.rebuild_cache) _ hcache2 hw2 (hco2 _ hcache2), hlen2, hsz]

/-!
Simulation between the cache-bearing and the no-cache variant.
-/

theorem all_map_free {A B : Type} (f : A → B) (l : List A) (p : B → Bool) :
    (l.map f).all p = l.all (p ∘ f) := by
  induction l with
  | nil => rfl
  | cons a t ih =>
    simp only [List.map_cons, List.all_cons, ih]
    rfl

theorem toNC_find? (l : List (Entry K V)) (k : K) :
    (l.map Entry.toNC).find? (fun e => e.key == k) =
      (l.find? (fun e => e.key == k)).map Entry.toNC := by
  rw [List.find?_map]
  rfl

theorem toNC_eraseP (l : List (Entry K V)) (k : K) :
    (l.map Entry.toNC).eraseP (fun e => e.key == k) =
      (l.eraseP (fun e => e.key == k)).map Entry.toNC := by
  rw [List.eraseP_map]
  rfl

theorem toNC_keys (l : List (Entry K V)) :
    (l.map Entry.toNC).map (·.key) = l.map (·.key) := by
  rw [List.map_map]
  rfl

theorem toNC_getLast_key (l : List (Entry K V)) :
    (l.map Entry.toNC).getLast?.map (·.key) = l.getLast?.map (·.key) := by
  rw [List.getLast?_map, Option.map_map]
  rfl

theorem toNC_head_key (l : List (Entry K V)) :
    (l.map Entry.toNC).head?.map (·.key) = l.head?.map (·.key) := by
  rw [List.head?_map, Option.map_map]
  rfl

theorem toNC_update (l : List (Entry K V)) (k : K) (v : V) :
    (l.map Entry.toNC).map (fun e => if e.key = k then { e with value := v } else e) =
      (l.map (fun e => if e.key = k then { e with value := v } else e)).map Entry.toNC := by
  rw [List.map_map, List.map_map]
  apply List.map_congr_left
  intro e _
  by_cases h : e.key = k <;> simp [Entry.toNC, Function.comp, h]

theorem ensure_true_some (c : Cache K) : ∃ c2, cache_ensure_capacity true c = some c2 := by
  by_cases hf : c.slots.length < c.capacity
  · exact ⟨c, ensure_notfull true hf⟩
  · exact ⟨_, ensure_full_ok hf⟩

theorem setitem_allOk_new (d : DD K V) (k : K) (v : V) (hm : k ∉ d.index) :
    ∃ ci co, d.setitem allOk k v =
      (DD.mk (d.entries ++ [⟨k, v, ci⟩]) (k :: d.index) (d.size + 1) co, Except.ok ()) := by
  cases hcache : d.cache with
  | none =>
    exact ⟨-1, none, setitem_new_none allOk d k v hm rfl rfl rfl hcache⟩
  | some c =>
    obtain ⟨c2, hens⟩ := ensure_true_some c
    exact ⟨(c2.slots.length : Int), _,
      setitem_new_some_ok allOk d k v c c2 hm rfl rfl rfl hcache hens⟩

theorem get_sim (d : DD K V) (k : K) (v0 : V) : (d.toNC).get k v0 = d.get k v0 := by
  unfold NC.get DD.get DD.lookupEntry
  by_cases hm : k ∈ d.index
  · rw [if_pos (show k ∈ d.toNC.index from hm), if_pos hm]
    show (match (d.entries.map Entry.toNC).find? (fun e => e.key == k) with
          | some e => e.value
          | none => v0) = _
    rw [toNC_find?]
    cases d.entries.find? (fun e => e.key == k) <;> simp [Entry.toNC]
  · rw [if_neg (show k ∉ d.toNC.index from hm), if_neg hm]

theorem getitem_sim (d : DD K V) (k : K) : (d.toNC).getitem k = d.getitem k := by
  unfold NC.getitem DD.getitem DD.lookupEntry
  by_cases hm : k ∈ d.index
  · rw [if_pos (show k ∈ d.toNC.index from hm), if_pos hm]
    show (match (d.entries.map Entry.toNC).find? (fun e => e.key == k) with
          | some e => Except.ok e.value
          | none => Except.error Err.keyError) = _
    rw [toNC_find?]
    cases d.entries.find? (fun e => e.key == k) <;> simp [Entry.toNC]
  · rw [if_neg (show k ∉ d.toNC.index from hm), if_neg hm]

theorem step_sim (d : DD K V) (op : Op K V) (hop : op.usesCache = false) :
    ((d.step op).1).toNC = ((d.toNC).step op).1 ∧
      (d.step op).2 = ((d.toNC).step op).2 := by
  cases op with
  | getOp k v0 =>
    refine ⟨rfl, ?_⟩
    simp only [DD.step, NC.step, get_sim]
  | getitemOp k =>
    refine ⟨rfl, ?_⟩
    simp only [DD.step, NC.step, getitem_sim]
  | setitemOp k v =>
    simp only [DD.step, NC.step]
    by_cases hm : k ∈ d.index
    · rw [setitem_mem_eq allOk d k v hm]
      unfold NC.setitem
      rw [if_pos (show k ∈ (d.toNC).index from hm)]
      refine ⟨?_, rfl⟩
      simp only [DD.toNC]
      rw [toNC_update]
    · obtain ⟨ci, co, heq⟩ := setitem_allOk_new d k v hm
      rw [heq]
      unfold NC.setitem
      rw [if_neg (show k ∉ (d.toNC).index from hm)]
      refine ⟨?_, rfl⟩
      simp [DD.toNC, Entry.toNC]
  | delitemOp k =>
    simp only [DD.step, NC.step]
    unfold DD.delitem NC.delitem
    by_cases hm : k ∈ d.index
    · rw [if_pos hm, if_pos (show k ∈ (d.toNC).index from hm)]
      refine ⟨?_, rfl⟩
      simp only [DD.toNC]
      rw [toNC_eraseP]
    · rw [if_neg hm, if_neg (show k ∉ (d.toNC).index from hm)]
      exact ⟨rfl, rfl⟩
  | containsOp k =>
    exact ⟨rfl, rfl⟩
  | peekleftOp =>
    refine ⟨rfl, ?_⟩
    simp only [DD.step, NC.step, DD.peekleft, NC.peekleft,
      show (d.toNC).entries = d.entries.map Entry.toNC from rfl]
    cases d.entries <;> rfl
  | peekleftitemOp =>
    refine ⟨rfl, ?_⟩
    simp only [DD.step, NC.step, DD.peekleftitem, NC.peekleftitem,
      show (d.toNC).entries = d.entries.map Entry.toNC from rfl]
    cases d.entries <;> rfl
  | peekleftkeyOp =>
    refine ⟨rfl, ?_⟩
    simp only [DD.step, NC.step, DD.peekleftkey, NC.peekleftkey,
      show (d.toNC).entries = d.entries.map Entry.toNC from rfl]
    cases d.entries <;> rfl
  | peekOp =>
    refine ⟨rfl, ?_⟩
    simp only [DD.step, NC.step, DD.peek, NC.peek,
      show (d.toNC).entries = d.entries.map Entry.toNC from rfl, List.getLast?_map]
    cases d.entries.getLast? <;> rfl
  | peekitemOp =>
    refine ⟨rfl, ?_⟩
    simp only [DD.step, NC.step, DD.peekitem, NC.peekitem,
      show (d.toNC).entries = d.entries.map Entry.toNC from rfl, List.getLast?_map]
    cases d.entries.getLast? <;> rfl
  | popleftOp =>
    simp only [DD.step, NC.step, DD.popleft, NC.popleft,
      show (d.toNC).entries = d.entries.map Entry.toNC from rfl]
    cases d.entries with
    | nil => exact ⟨rfl, rfl⟩
    | cons e rest => exact ⟨rfl, rfl⟩
  | popleftitemOp =>
    simp only [DD.step, NC.step, DD.popleftitem, NC.popleftitem,
      show (d.toNC).entries = d.entries.map Entry.toNC from rfl]
    cases d.entries with
    | nil => exact ⟨rfl, rfl⟩
    | cons e rest => exact ⟨rfl, rfl⟩
  | popOp key dflt =>
    cases key with
    | none =>
      simp only [DD.step, NC.step, DD.pop, NC.pop]
      unfold DD.popright NC.popright
      show ((DD.toNC _ = _) ∧ _)
      rw [show (d.toNC).entries = d.entries.map Entry.toNC from rfl, List.getLast?_map]
      cases hl : d.entries.getLast? with
      | none =>
        cases dflt <;> exact ⟨rfl, rfl⟩
      | some e =>
        refine ⟨?_, rfl⟩
        simp only [DD.toNC, Option.map_some']
        rw [← List.map_dropLast]
        rfl
    | some k =>
      simp only [DD.step, NC.step, DD.pop, NC.pop]
      unfold DD.pop_by_key NC.pop_by_key
      by_cases hm : k ∈ d.index
      · rw [if_pos hm, if_pos (show k ∈ (d.toNC).index from hm)]
        rw [show (d.toNC).entries = d.entries.map Entry.toNC from rfl, toNC_find?]
        cases hf : d.entries.find? (fun e => e.key == k) with
        | none => exact ⟨rfl, rfl⟩
        | some e =>
          refine ⟨?_, rfl⟩
          simp only [DD.toNC, Option.map_some']
          rw [toNC_eraseP]
      · rw [if_neg hm, if_neg (show k ∉ (d.toNC).index from hm)]
        cases dflt <;> exact ⟨rfl, rfl⟩
  | popitemOp =>
    simp only [DD.step, NC.step, DD.popitem, NC.popitem]
    rw [show (d.toNC).entries = d.entries.map Entry.toNC from rfl, List.getLast?_map]
    cases hl : d.entries.getLast? with
    | none => exact ⟨rfl, rfl⟩
    | some e =>
      refine ⟨?_, rfl⟩
      simp only [DD.toNC, Option.map_some']
      rw [← List.map_dropLast]
      rfl
  | appendleftOp k v =>
    simp only [DD.step, NC.step]
    unfold DD.appendleft NC.appendleft
    by_cases hm : k ∈ d.index
    · rw [if_pos hm, if_pos (show k ∈ (d.toNC).index from hm)]
      exact ⟨rfl, rfl⟩
    · rw [if_neg hm, if_neg (show k ∉ (d.toNC).index from hm)]
      rw [if_neg (by decide : ¬ allOk.entryOk = false),
          if_neg (by decide : ¬ (allOk.capsuleOk = false ∨ allOk.dictSetOk = false))]
      refine ⟨?_, rfl⟩
      simp [DD.toNC, Entry.toNC]
  | moveToEndOp k last =>
    simp only [DD.step, NC.step]
    unfold DD.move_to_end NC.move_to_end
    by_cases hm : k ∈ d.index
    · rw [if_pos hm, if_pos (show k ∈ (d.toNC).index from hm)]
      rw [show (d.toNC).entries = d.entries.map Entry.toNC from rfl, toNC_find?]
      cases hf : d.entries.find? (fun e => e.key == k) with
      | none => exact ⟨rfl, rfl⟩
      | some e =>
        simp only [Option.map_some']
        rw [toNC_getLast_key, toNC_head_key]
        by_cases hend : (if last then decide (d.entries.getLast?.map (·.key) = some k)
            else decide (d.entries.head?.map (·.key) = some k)) = true
        · rw [if_pos hend, if_pos hend]
          exact ⟨rfl, rfl⟩
        · rw [if_neg hend, if_neg hend]
          refine ⟨?_, rfl⟩
          simp only [DD.toNC]
          rw [toNC_eraseP]
          cases last <;> simp [Entry.toNC]
    · rw [if_neg hm, if_neg (show k ∉ (d.toNC).index from hm)]
      exact ⟨rfl, rfl⟩
  | clearOp =>
    exact ⟨rfl, rfl⟩
  | iterOp =>
    refine ⟨rfl, ?_⟩
    simp only [DD.step, NC.step, DD.iterKeys, NC.iterKeys]
    rw [show (d.toNC).entries = d.entries.map Entry.toNC from rfl, toNC_keys]
  | reversedOp =>
    refine ⟨rfl, ?_⟩
    simp only [DD.step, NC.step, DD.reversedKeys, NC.reversedKeys]
    rw [show (d.toNC).entries = d.entries.map Entry.toNC from rfl, toNC_keys]
  | eqOp other =>
    refine ⟨rfl, ?_⟩
    show Out.boolOut (d.eqMap other) = Out.boolOut ((d.toNC).eqMap other)
    have heq : (d.toNC).eqMap other = d.eqMap other := by
      unfold NC.eqMap DD.eqMap
      by_cases hs : d.size ≠ other.length
      · rw [if_pos (show (d.toNC).size ≠ other.length from hs), if_pos hs]
      · rw [if_neg (show ¬ (d.toNC).size ≠ other.length from hs), if_neg hs]
        show (d.entries.map Entry.toNC).all _ = _
        rw [all_map_free]
        rfl
    rw [heq]
  | atOp i =>
    simp [Op.usesCache] at hop

theorem run_sim (d : DD K V) (ops : List (Op K V))
    (hops : ∀ op ∈ ops, op.usesCache = false) :
    ((d.run ops).1).toNC = ((d.toNC).run ops).1 ∧
      (d.run ops).2 = ((d.toNC).run ops).2 := by
  induction ops generalizing d with
  | nil => exact ⟨rfl, rfl⟩
  | cons op rest ih =>
    have h1 := step_sim d op (hops op (List.mem_cons_self op rest))
    have h2 := ih (d.step op).1 (fun o ho => hops o (List.mem_cons_of_mem op ho))
    simp only [DD.run, NC.run]
    constructor
    · rw [h2.1, h1.1]
    · rw [h1.2, h2.2, h1.1]

/-!
Order-independence of the equality comparison.
-/

theorem lookup_nodup_mem {l : List (K × V)} {k : K} {v : V}
    (hnd : (l.map Prod.fst).Nodup) :
    l.lookup k = some v ↔ (k, v) ∈ l := by
  induction l with
  | nil => simp
  | cons p rest ih =>
    obtain ⟨k1, v1⟩ := p
    simp only [List.map_cons, List.nodup_cons] at hnd
    rw [List.lookup_cons]
    by_cases hk : k = k1
    · subst hk
      simp only [beq_self_eq_true]
      constructor
      · intro h
        obtain rfl := Option.some_inj.mp h
        exact List.mem_cons_self _ _
      · intro h
        rcases List.mem_cons.mp h with heq | hmem
        · rw [(Prod.mk.injEq _ _ _ _).mp heq |>.2]
        · exact absurd (List.mem_map_of_mem Prod.fst hmem) hnd.1
    · rw [show (k == k1) = false by simp [hk]]
      rw [ih hnd.2]
      constructor
      · exact List.mem_cons_of_mem _
      · intro h
        rcases List.mem_cons.mp h with heq | hmem
        · exact absurd ((Prod.mk.injEq _ _ _ _).mp heq).1 hk
        · exact hmem

theorem lookup_perm {l1 l2 : List (K × V)} (hnd : (l1.map Prod.fst).Nodup)
    (hp : l1.Perm l2) (k : K) : l1.lookup k = l2.lookup k := by
  have hnd2 : (l2.map Prod.fst).Nodup := hnd.perm (hp.map Prod.fst)
  cases h1 : l1.lookup k with
  | some v =>
    have hm : (k, v) ∈ l1 := (lookup_nodup_mem hnd).mp h1
    have hm2 : (k, v) ∈ l2 := hp.mem_iff.mp hm
    exact ((lookup_nodup_mem hnd2).mpr hm2).symm
  | none =>
    rw [List.lookup_eq_none_iff] at h1
    symm
    rw [List.lookup_eq_none_iff]
    intro p hp2
    exact h1 p (hp.mem_iff.mpr hp2)

theorem eqMap_perm (d : DD K V) (other other2 : List (K × V))
    (ho : (other.map Prod.fst).Nodup) (hp : other.Perm other2) :
    d.eqMap other = d.eqMap other2 := by
  have hlk : ∀ k, other.lookup k = other2.lookup k := lookup_perm ho hp
  unfold DD.eqMap
  rw [hp.length_eq]
  by_cases hc : d.size ≠ other2.length
  · rw [if_pos hc, if_pos hc]
  · rw [if_neg hc, if_neg hc]
    congr 1
    funext e
    rw [hlk e.key]

theorem eqMap_true_iff (d : DD K V) (other : List (K × V))
    (hw : d.WF) (ho : (other.map Prod.fst).Nodup) :
    (d.eqMap other = true ↔
      (d.size = other.length ∧
        (∀ e ∈ d.entries, other.lookup e.key = some e.value) ∧
        (∀ p ∈ other, ∃ e ∈ d.entries, e.key = p.1 ∧ e.value = p.2))) := by
  obtain ⟨hnd, hind, hsz, hs1, hs2⟩ := hw
  unfold DD.eqMap
  by_cases hc : d.size ≠ other.length
  · rw [if_pos hc]
    simp only [Bool.false_eq_true, false_iff]
    intro hcon
    exact hc hcon.1
  · rw [if_neg hc]
    have hlen : d.size = other.length := by omega
    rw [List.all_eq_true]
    constructor
    · intro hall
      refine ⟨hlen, ?_, ?_⟩
      · intro e he
        have := hall e he
        cases hlu : other.lookup e.key with
        | none =>
          rw [hlu] at this
          simp at this
        | some v =>
          rw [hlu] at this
          simp only [beq_iff_eq] at this
          rw [this]
      · intro p hpm
        have hsub : d.entries.map (·.key) ⊆ other.map Prod.fst := by
          intro x hx
          obtain ⟨e, he, hek⟩ := List.mem_map.mp hx
          have := hall e he
          cases hlu : other.lookup e.key with
          | none =>
            rw [hlu] at this
            simp at this
          | some v =>
            have hmem : (e.key, v) ∈ other := (lookup_nodup_mem ho).mp hlu
            have := List.mem_map_of_mem Prod.fst hmem
            simpa [hek] using this
        have hperm : (d.entries.map (·.key)).Perm (other.map Prod.fst) := by
          apply List.Subperm.perm_of_length_le (List.subperm_of_subset hnd hsub)
          simp only [List.length_map]
          omega
        have hp1 : p.1 ∈ d.entries.map (·.key) :=
          hperm.mem_iff.mpr (List.mem_map_of_mem Prod.fst hpm)
        obtain ⟨e, he, hek⟩ := List.mem_map.mp hp1
        refine ⟨e, he, hek, ?_⟩
        have := hall e he
        cases hlu : other.lookup e.key with
        | none =>
          rw [hlu] at this
          simp at this
        | some v =>
          rw [hlu] at this
          simp only [beq_iff_eq] at this
          have hmemp : (p.1, p.2) ∈ other := by
            simpa using hpm
          have hlu2 : other.lookup p.1 = some p.2 := (lookup_nodup_mem ho).mpr hmemp
          rw [hek] at hlu
          rw [hlu2] at hlu
          obtain rfl := Option.some_inj.mp hlu
          exact this
    · intro hside
      intro e he
      rw [hside.2.1 e he]
      simp

/-!
Final helpers for the claim theorems.
-/

theorem atIndex_val_cached (d : DD K V) (c : Cache K) (hc : d.cache = some c)
    (hw : d.WF) (hmir : c.Mirrors d.entries) (i : Int) (n : Nat)
    (hn : n < d.entries.length)
    (hnorm : (if i < 0 then i + (d.entries.length : Int) else i) = (n : Int)) :
    d.atIndex i = (d, Except.ok ((d.entries[n]).value)) := by
  rw [atIndex_some_eq d c hc]
  have hlen := hmir.length_eq
  have hlog : (c.slots.length : Int) - (c.offset : Int) = (d.entries.length : Int) := by
    omega
  simp only [hlog]
  rw [hnorm]
  rw [if_neg (by omega)]
  have ht : ((n : Int)).toNat = n := Int.toNat_natCast n
  rw [ht, slot_find d c hw.1 hmir n hn]

theorem peek_eq (d : DD K V) (hlt : d.entries.length - 1 < d.entries.length) :
    d.peek = Except.ok ((d.entries[d.entries.length - 1]).value) := by
  unfold DD.peek
  rw [List.getLast?_eq_getElem?, List.getElem?_eq_getElem hlt]

theorem enumIdx_values (l : List (Entry K V)) :
    (l.enum.map (fun p => { p.2 with cache_idx := (p.1 : Int) })).map (·.value) =
      l.map (·.value) := by
  apply List.ext_getElem
  · simp
  · intro i h1 h2
    simp

theorem find?_update (l : List (Entry K V)) (k : K) (v : V) (k2 : K) :
    (l.map (fun e => if e.key = k then { e with value := v } else e)).find?
        (fun e => e.key == k2) =
      (l.find? (fun e => e.key == k2)).map
        (fun e => if e.key = k then { e with value := v } else e) := by
  rw [List.find?_map]
  have hp : ((fun e : Entry K V => e.key == k2) ∘
      (fun e => if e.key = k then { e with value := v } else e)) =
      (fun e : Entry K V => e.key == k2) := by
    funext e
    by_cases h : e.key = k <;> simp [Function.comp, h]
  rw [hp]

/-!
The claim theorems.
-/

/-- C2: every operation preserves the invariant that, whenever the
position cache is present, its slots from the offset onward mirror the
entry list head to tail with correct stored slot indices, the key index
and size agree with the list, and consequently `at(i)` returns the value
of the i-th entry of the head-to-tail traversal for every `i` in
`[0, size())`, with no explicit rebuild by the caller. -/
theorem invariant_preserved_and_at_correct (d : DD K V) (op : Op K V)
    (h : d.Invariant) :
    ((d.step op).1).Invariant ∧
    ∀ i : Fin d.entries.length,
      (d.atIndex ((i : Nat) : Int)).2 = Except.ok ((d.entries.get i).value) := by
  refine ⟨Invariant_step d op h, ?_⟩
  intro i
  have := (atIndex_ok d h.1 h.2 (i : Nat) i.isLt).1
  simpa using this

/-- Witness for C2 at a concrete cached three-entry container and a
`popleft` step. -/
theorem invariant_preserved_and_at_correct_witness :
    ((dABCc.step Op.popleftOp).1).Invariant ∧
    (dABCc.atIndex ((1 : Nat) : Int)).2 =
      Except.ok ((dABCc.entries.get ⟨1, by decide⟩).value) :=
  ⟨(invariant_preserved_and_at_correct dABCc Op.popleftOp (by decide)).1,
   (invariant_preserved_and_at_correct dABCc Op.popleftOp (by decide)).2 ⟨1, by decide⟩⟩

/-- C1 (divergence evidence): when creating the key-index handle
(`PyLong_FromVoidPtr`) fails during `set` of a new key on an empty
container, the operation reports the failure but the container is NOT
its pre-call state: the new entry stays linked (its memory freed), the
size is incremented, and the key is absent from the key index; the same
happens in `append_front`.  By contrast the entry-allocation failure
point does leave the pre-call state. -/
theorem setitem_capsule_failure_not_atomic :
    (dEmpty.setitem ⟨true, true, false, true⟩ 5 50).2 = Except.error Err.memoryError ∧
    (dEmpty.setitem ⟨true, true, false, true⟩ 5 50).1 ≠ dEmpty ∧
    (dEmpty.setitem ⟨true, true, false, true⟩ 5 50).1.size = 1 ∧
    (dEmpty.setitem ⟨true, true, false, true⟩ 5 50).1.entries.map (·.key) = [5] ∧
    5 ∉ (dEmpty.setitem ⟨true, true, false, true⟩ 5 50).1.index ∧
    (dEmpty.appendleft ⟨true, true, false, true⟩ 5 50).2 = Except.error Err.memoryError ∧
    (dEmpty.appendleft ⟨true, true, false, true⟩ 5 50).1.size = 1 ∧
    5 ∉ (dEmpty.appendleft ⟨true, true, false, true⟩ 5 50).1.index ∧
    dEmpty.setitem ⟨false, true, true, true⟩ 5 50 =
      (dEmpty, Except.error Err.memoryError) ∧
    dEmpty.appendleft ⟨false, true, true, true⟩ 5 50 =
      (dEmpty, Except.error Err.memoryError) := by
  decide

/-- C3: when the position cache is present and full, the growth step of
a tail-append `set` of a new key doubles the capacity with a minimum of
8; when that reallocation fails the cache becomes absent rather than
corrupted, the `set` still succeeds with the new key at the tail, and a
subsequent `at()` rebuilds the cache and answers correctly. -/
theorem cache_growth_and_degrade (d : DD K V) (c : Cache K) (k : K) (v : V)
    (hw : d.WF) (hco : d.CacheOk) (hc : d.cache = some c)
    (hfull : c.slots.length = c.capacity) (hm : k ∉ d.index) :
    cache_ensure_capacity true c =
      some (Cache.mk c.slots (max (c.capacity * 2) 8) c.offset) ∧
    cache_ensure_capacity false c = none ∧
    (d.setitem ⟨true, false, true, true⟩ k v).2 = Except.ok () ∧
    (d.setitem ⟨true, false, true, true⟩ k v).1.cache = none ∧
    (d.setitem ⟨true, false, true, true⟩ k v).1.entries.map (·.key) =
      d.entries.map (·.key) ++ [k] ∧
    (d.setitem ⟨true, false, true, true⟩ k v).1.size = d.size + 1 ∧
    (∀ i : Fin (d.setitem ⟨true, false, true, true⟩ k v).1.entries.length,
      ((d.setitem ⟨true, false, true, true⟩ k v).1.atIndex ((i : Nat) : Int)).2 =
        Except.ok (((d.setitem ⟨true, false, true, true⟩ k v).1.entries.get i).value) ∧
      (((d.setitem ⟨true, false, true, true⟩ k v).1.atIndex ((i : Nat) : Int)).1.cache).isSome
        = true) := by
  have hnotlt : ¬ c.slots.length < c.capacity := by omega
  have hens : cache_ensure_capacity false c = none := ensure_full_fail hnotlt
  have heq := setitem_new_some_fail ⟨true, false, true, true⟩ d k v c hm rfl rfl rfl hc hens
  have hmax : (if c.capacity * 2 < 8 then 8 else c.capacity * 2) = max (c.capacity * 2) 8 := by
    by_cases h8 : c.capacity * 2 < 8
    · rw [if_pos h8]
      omega
    · rw [if_neg h8]
      omega
  refine ⟨?_, hens, ?_, ?_, ?_, ?_, ?_⟩
  · rw [ensure_full_ok hnotlt, hmax]
  · rw [heq]
  · rw [heq]
  · rw [heq]
    simp
  · rw [heq]
  · intro i
    have hw2 : ((d.setitem ⟨true, false, true, true⟩ k v).1).WF :=
      WF_setitem ⟨true, false, true, true⟩ d k v rfl rfl hw
    have hco2 : ((d.setitem ⟨true, false, true, true⟩ k v).1).CacheOk :=
      CacheOk_setitem ⟨true, false, true, true⟩ d k v hco rfl rfl
    have := atIndex_ok ((d.setitem ⟨true, false, true, true⟩ k v).1) hw2 hco2 (i : Nat) i.isLt
    simpa using this

/-- Witness for C3 at a concrete one-entry container with a full cache. -/
theorem cache_growth_and_degrade_witness :
    cache_ensure_capacity true { slots := [1], capacity := 1, offset := 0 } =
      some (Cache.mk [1] (max (1 * 2) 8) 0) ∧
    (dFull.setitem ⟨true, false, true, true⟩ 2 20).2 = Except.ok () ∧
    (dFull.setitem ⟨true, false, true, true⟩ 2 20).1.cache = none :=
  ⟨(cache_growth_and_degrade dFull { slots := [1], capacity := 1, offset := 0 } 2 20
      (by decide) (by decide) (by decide) (by decide) (by decide)).1,
   (cache_growth_and_degrade dFull { slots := [1], capacity := 1, offset := 0 } 2 20
      (by decide) (by decide) (by decide) (by decide) (by decide)).2.2.1,
   (cache_growth_and_degrade dFull { slots := [1], capacity := 1, offset := 0 } 2 20
      (by decide) (by decide) (by decide) (by decide) (by decide)).2.2.2.1⟩

/-- C4: `at` adds the logical size to a negative index, fails with
`IndexError` exactly when the normalized index is out of `[0, size)`,
in particular at `size()`, at `-size()-1`, and at any index of an empty
container; and on a non-empty container `at(-1)` equals `peek_back`. -/
theorem at_negative_normalization_and_bounds (d : DD K V) (h : d.Invariant) :
    (∀ i : Int, ((d.atIndex i).2 = Except.error Err.indexError ↔
      ((if i < 0 then i + (d.size : Int) else i) < 0 ∨
        (d.size : Int) ≤ (if i < 0 then i + (d.size : Int) else i)))) ∧
    (d.atIndex (d.size : Int)).2 = Except.error Err.indexError ∧
    (d.atIndex (-(d.size : Int) - 1)).2 = Except.error Err.indexError ∧
    (d.size = 0 → ∀ i : Int, (d.atIndex i).2 = Except.error Err.indexError) ∧
    (d.entries ≠ [] → (d.atIndex (-1)).2 = d.peek) := by
  obtain ⟨hw, hco⟩ := h
  have hiff := atIndex_err_iff d hw hco
  refine ⟨hiff, ?_, ?_, ?_, ?_⟩
  · rw [hiff (d.size : Int)]
    rw [if_neg (by push_cast; omega)]
    omega
  · rw [hiff (-(d.size : Int) - 1)]
    rw [if_pos (by push_cast; omega)]
    omega
  · intro hz i
    rw [hiff i, hz]
    by_cases hi : i < 0
    · rw [if_pos hi]
      omega
    · rw [if_neg hi]
      omega
  · intro hne
    have hlen : 0 < d.entries.length := List.length_pos.mpr hne
    have hlt : d.entries.length - 1 < d.entries.length := by omega
    have hnorm : (if (-1 : Int) < 0 then (-1 : Int) + (d.entries.length : Int) else -1) =
        ((d.entries.length - 1 : Nat) : Int) := by
      rw [if_pos (by omega)]
      push_cast [hlen]
      omega
    cases hcache : d.cache with
    | some c =>
      rw [atIndex_val_cached d c hcache hw (hco c hcache) (-1) (d.entries.length - 1) hlt hnorm]
      rw [peek_eq d hlt]
    | none =>
      have hz : ¬ d.size = 0 := by
        have := hw.2.2.1
        omega
      rw [atIndex_rebuild d hcache]
      have hw2 := rebuild_cache_WF d hw
      have hco2 := rebuild_cache_CacheOk d hw
      have hcache2 : (d.rebuild_cache).cache =
          some (Cache.mk (d.entries.map (·.key)) d.size 0) := by
        simp [DD.rebuild_cache, hz]
      have hlen2 : (d.rebuild_cache).entries.length = d.entries.length := by
        simp [DD.rebuild_cache, hz, enumIdx_length]
      have hlt2 : d.entries.length - 1 < (d.rebuild_cache).entries.length := by
        omega
      have hnorm2 : (if (-1 : Int) < 0 then
          (-1 : Int) + ((d.rebuild_cache).entries.length : Int) else -1) =
          ((d.entries.length - 1 : Nat) : Int) := by
        rw [if_pos (by omega), hlen2]
        push_cast [hlen]
        omega
      rw [atIndex_val_cached (d.rebuild_cache) _ hcache2 hw2 (hco2 _ hcache2) (-1)
        (d.entries.length - 1) hlt2 hnorm2]
      rw [peek_eq d hlt, rebuild_cache_values d (d.entries.length - 1) hlt hz hlt2]

/-- Witness for C4 at the concrete cached three-entry container. -/
theorem at_negative_normalization_and_bounds_witness :
    (dABCc.atIndex ((dABCc.size : Nat) : Int)).2 = Except.error Err.indexError ∧
    (dABCc.atIndex (-1)).2 = dABCc.peek :=
  ⟨(at_negative_normalization_and_bounds dABCc (by decide)).2.1,
   (at_negative_normalization_and_bounds dABCc (by decide)).2.2.2.2 (by decide)⟩

/-- C5: `move_to_end` fails with `KeyError` when the key is absent, is
a no-op when the entry is already at the requested end, and otherwise
unlinks the entry and relinks it at the requested end; on a three-entry
container `a, b, c`, moving `a` to the front leaves the order unchanged
while moving `a` to the back yields `b, c, a`. -/
theorem move_to_end_spec (d : DD K V) (k : K) (hw : d.WF) :
    (∀ last : Bool, k ∉ d.index → d.move_to_end k last = (d, Except.error Err.keyError)) ∧
    (k ∈ d.index → d.entries.getLast?.map (·.key) = some k →
      d.move_to_end k true = (d, Except.ok ())) ∧
    (k ∈ d.index → d.entries.head?.map (·.key) = some k →
      d.move_to_end k false = (d, Except.ok ())) ∧
    (k ∈ d.index → ¬ d.entries.getLast?.map (·.key) = some k →
      (d.move_to_end k true).2 = Except.ok () ∧
      ((d.move_to_end k true).1).iterKeys = (d.iterKeys).erase k ++ [k] ∧
      ((d.move_to_end k true).1).index = d.index ∧
      ((d.move_to_end k true).1).size = d.size) ∧
    (k ∈ d.index → ¬ d.entries.head?.map (·.key) = some k →
      (d.move_to_end k false).2 = Except.ok () ∧
      ((d.move_to_end k false).1).iterKeys = k :: (d.iterKeys).erase k ∧
      ((d.move_to_end k false).1).index = d.index ∧
      ((d.move_to_end k false).1).size = d.size) ∧
    ((dABC.move_to_end 1 false) = (dABC, Except.ok ()) ∧
      (dABC.move_to_end 1 true).1.iterKeys = [2, 3, 1]) := by
  refine ⟨?_, ?_, ?_, ?_, ?_, by decide⟩
  · intro last hm
    exact move_absent d k last hm
  · intro hm hend
    obtain ⟨e, hf⟩ := find?_bykey_isSome (hw.2.2.2.1 k hm)
    exact move_noop_back d k e hm hf hend
  · intro hm hend
    obtain ⟨e, hf⟩ := find?_bykey_isSome (hw.2.2.2.1 k hm)
    exact move_noop_front d k e hm hf hend
  · intro hm hend
    obtain ⟨e, hf⟩ := find?_bykey_isSome (hw.2.2.2.1 k hm)
    rw [move_relink_back d k e hm hf hend]
    refine ⟨rfl, ?_, rfl, rfl⟩
    show ((d.entries.eraseP (fun x => x.key == k)) ++ [e]).map (·.key) = _
    rw [List.map_append, keys_eraseP]
    obtain ⟨_, hek⟩ := find?_bykey_some hf
    simp [DD.iterKeys, hek]
  · intro hm hend
    obtain ⟨e, hf⟩ := find?_bykey_isSome (hw.2.2.2.1 k hm)
    rw [move_relink_front d k e hm hf hend]
    refine ⟨rfl, ?_, rfl, rfl⟩
    show (e :: d.entries.eraseP (fun x => x.key == k)).map (·.key) = _
    rw [List.map_cons, keys_eraseP]
    obtain ⟨_, hek⟩ := find?_bykey_some hf
    simp [DD.iterKeys, hek]

/-- Witness for C5 on the concrete three-entry container. -/
theorem move_to_end_spec_witness :
    dABC.move_to_end 1 false = (dABC, Except.ok ()) ∧
    (dABC.move_to_end 1 true).2 = Except.ok () ∧
    (dABC.move_to_end 1 true).1.iterKeys = (dABC.iterKeys).erase 1 ++ [1] :=
  ⟨(move_to_end_spec dABC 1 (by decide)).2.2.1 (by decide) (by decide),
   ((move_to_end_spec dABC 1 (by decide)).2.2.2.1 (by decide) (by decide)).1,
   ((move_to_end_spec dABC 1 (by decide)).2.2.2.1 (by decide) (by decide)).2.1⟩

/-- C6: `set` of an already-present key replaces only the stored value:
it reports success, leaves the key order, size, key index and the whole
position-cache state unchanged, a following `get(k)` returns the new
value, and every other key still maps to its old value. -/
theorem set_existing_replaces_value_only (d : DD K V) (k : K) (v : V)
    (hw : d.WF) (hm : k ∈ d.index) :
    (d.setitem allOk k v).2 = Except.ok () ∧
    ((d.setitem allOk k v).1).iterKeys = d.iterKeys ∧
    ((d.setitem allOk k v).1).size = d.size ∧
    ((d.setitem allOk k v).1).cache = d.cache ∧
    ((d.setitem allOk k v).1).index = d.index ∧
    ((d.setitem allOk k v).1).getitem k = Except.ok v ∧
    (∀ k2, k2 ≠ k → ((d.setitem allOk k v).1).getitem k2 = d.getitem k2) := by
  rw [setitem_mem_eq allOk d k v hm]
  refine ⟨rfl, ?_, rfl, rfl, rfl, ?_, ?_⟩
  · show (d.entries.map (fun e => if e.key = k then { e with value := v } else e)).map (·.key)
      = _
    rw [keys_update]
    rfl
  · show DD.getitem _ k = _
    unfold DD.getitem DD.lookupEntry
    rw [if_pos (show k ∈ d.index from hm)]
    show (match (d.entries.map (fun e => if e.key = k then { e with value := v } else e)).find?
        (fun e => e.key == k) with
      | some e => Except.ok e.value
      | none => Except.error Err.keyError) = _
    rw [find?_update]
    obtain ⟨e, hf⟩ := find?_bykey_isSome (hw.2.2.2.1 k hm)
    obtain ⟨_, hek⟩ := find?_bykey_some hf
    rw [hf]
    simp [hek]
  · intro k2 hk2
    show DD.getitem _ k2 = _
    unfold DD.getitem DD.lookupEntry
    by_cases hm2 : k2 ∈ d.index
    · rw [if_pos (show k2 ∈ d.index from hm2), if_pos hm2]
      show (match (d.entries.map (fun e => if e.key = k then { e with value := v } else e)).find?
          (fun e => e.key == k2) with
        | some e => Except.ok e.value
        | none => Except.error Err.keyError) = _
      rw [find?_update]
      cases hf : d.entries.find? (fun e => e.key == k2) with
      | none => rfl
      | some e =>
        obtain ⟨_, hek⟩ := find?_bykey_some hf
        have hne : ¬ e.key = k := by
          rw [hek]
          exact hk2
        simp [hne]
    · rw [if_neg (show k2 ∉ d.index from hm2), if_neg hm2]

/-- Witness for C6 on the concrete three-entry container. -/
theorem set_existing_replaces_value_only_witness :
    (dABC.setitem allOk 2 99).2 = Except.ok () ∧
    ((dABC.setitem allOk 2 99).1).iterKeys = dABC.iterKeys ∧
    ((dABC.setitem allOk 2 99).1).getitem 2 = Except.ok 99 :=
  ⟨(set_existing_replaces_value_only dABC 2 99 (by decide) (by decide)).1,
   (set_existing_replaces_value_only dABC 2 99 (by decide) (by decide)).2.1,
   (set_existing_replaces_value_only dABC 2 99 (by decide) (by decide)).2.2.2.2.2.1⟩

/-- C7: `pop(k, default)` on an absent key returns the default without
raising and without changing the container; `pop(k)` with no default
fails with `KeyError`; and on a present key `pop(k)` removes the entry
exactly like `delete` while returning its stored value, with the cache
invalidated. -/
theorem pop_key_spec (d : DD K V) (k : K) (v0 : V) (hw : d.WF) :
    (k ∉ d.index → d.pop (some k) (some v0) = (d, Except.ok v0)) ∧
    (k ∉ d.index → d.pop (some k) none = (d, Except.error Err.keyError)) ∧
    (k ∈ d.index → ∀ dflt : Option V,
      (d.pop (some k) dflt).1 = (d.delitem k).1 ∧
      (∃ e, d.entries.find? (fun x => x.key == k) = some e ∧
        (d.pop (some k) dflt).2 = Except.ok e.value) ∧
      (d.pop (some k) dflt).1.cache = none) := by
  refine ⟨?_, ?_, ?_⟩
  · intro hm
    simp only [DD.pop, DD.pop_by_key, if_neg hm]
  · intro hm
    simp only [DD.pop, DD.pop_by_key, if_neg hm]
  · intro hm dflt
    obtain ⟨e, hf⟩ := find?_bykey_isSome (hw.2.2.2.1 k hm)
    simp only [DD.pop, DD.pop_by_key, DD.delitem, if_pos hm, hf]
    exact ⟨trivial, ⟨e, rfl, rfl⟩, trivial⟩

/-- Witness for C7 (spec scenario E): popping an absent key with a
default returns the default and leaves the container unchanged. -/
theorem pop_key_spec_witness :
    dABC.pop (some 9) (some 7) = (dABC, Except.ok 7) ∧
    dABC.pop (some 9) none = (dABC, Except.error Err.keyError) :=
  ⟨(pop_key_spec dABC 9 7 (by decide)).1 (by decide),
   (pop_key_spec dABC 9 7 (by decide)).2.1 (by decide)⟩

/-- C8: comparison against a plain mapping succeeds exactly when the
sizes agree and every key of either side is mapped by the other to an
equal value, independently of the mapping's order, while each
container's own iteration order is fixed by its construction. -/
theorem eq_order_independent (d : DD K V) (other : List (K × V))
    (hw : d.WF) (ho : (other.map Prod.fst).Nodup) :
    (d.eqMap other = true ↔
      (d.size = other.length ∧
        (∀ e ∈ d.entries, other.lookup e.key = some e.value) ∧
        (∀ p ∈ other, ∃ e ∈ d.entries, e.key = p.1 ∧ e.value = p.2))) ∧
    (∀ other2, other.Perm other2 → d.eqMap other = d.eqMap other2) ∧
    (dABC.eqMap [(2, 20), (1, 10), (3, 30)] = true ∧ dABC.iterKeys = [1, 2, 3]) :=
  ⟨eqMap_true_iff d other hw ho,
   fun o2 hp => eqMap_perm d other o2 ho hp,
   by decide⟩

/-- Witness for C8: equality with a differently-ordered mapping. -/
theorem eq_order_independent_witness :
    dABC.eqMap [(2, 20), (1, 10), (3, 30)] = dABC.eqMap [(1, 10), (2, 20), (3, 30)] :=
  (eq_order_independent dABC [(2, 20), (1, 10), (3, 30)] (by decide) (by decide)).2.1
    [(1, 10), (2, 20), (3, 30)] (by decide)

/-- C9: the no-cache variant is a functional subset of the cache-bearing
variant: any sequence of shared-interface calls (everything except
`at`) produces the same outcomes, the same errors, and a final state
with the same sequence of entries and the same key index and size. -/
theorem nocache_refinement (d : DD K V) (ops : List (Op K V))
    (hops : ∀ op ∈ ops, op.usesCache = false) :
    (d.run ops).2 = ((d.toNC).run ops).2 ∧
    ((d.run ops).1).toNC = ((d.toNC).run ops).1 :=
  ⟨(run_sim d ops hops).2, (run_sim d ops hops).1⟩

/-- Witness for C9 over a mixed concrete call sequence starting from a
state whose cache is present. -/
theorem nocache_refinement_witness :
    (dABCc.run [Op.setitemOp 4 40, Op.popleftOp, Op.popOp none none,
        Op.moveToEndOp 2 true, Op.iterOp, Op.getitemOp 9, Op.appendleftOp 7 70]).2 =
      ((dABCc.toNC).run [Op.setitemOp 4 40, Op.popleftOp, Op.popOp none none,
        Op.moveToEndOp 2 true, Op.iterOp, Op.getitemOp 9, Op.appendleftOp 7 70]).2 ∧
    ((dABCc.run [Op.setitemOp 4 40, Op.popleftOp, Op.popOp none none,
        Op.moveToEndOp 2 true, Op.iterOp, Op.getitemOp 9, Op.appendleftOp 7 70]).1).toNC =
      ((dABCc.toNC).run [Op.setitemOp 4 40, Op.popleftOp, Op.popOp none none,
        Op.moveToEndOp 2 true, Op.iterOp, Op.getitemOp 9, Op.appendleftOp 7 70]).1 :=
  nocache_refinement dABCc
    [Op.setitemOp 4 40, Op.popleftOp, Op.popOp none none,
      Op.moveToEndOp 2 true, Op.iterOp, Op.getitemOp 9, Op.appendleftOp 7 70]
    (by decide)

/-- C10: whenever an operation fails with a key-not-found, duplicate-key,
empty-container or index-out-of-range error, the container's observable
content (its keys, values and size) is exactly as before; only `at`
may additionally materialize the position cache. -/
theorem error_atomicity (d : DD K V) (k : K) (v : V) (hinv : d.Invariant) :
    (k ∉ d.index → d.getitem k = Except.error Err.keyError) ∧
    (k ∉ d.index → d.delitem k = (d, Except.error Err.keyError)) ∧
    (k ∈ d.index → d.appendleft allOk k v = (d, Except.error Err.keyError)) ∧
    (d.entries = [] →
      d.peekleft = Except.error Err.indexError ∧
      d.peek = Except.error Err.indexError ∧
      d.popleft = (d, Except.error Err.indexError) ∧
      d.pop none none = (d, Except.error Err.indexError) ∧
      d.popitem = (d, Except.error Err.keyError) ∧
      d.popleftitem = (d, Except.error Err.keyError)) ∧
    (∀ i : Int, (d.atIndex i).2 = Except.error Err.indexError →
      ((d.atIndex i).1.entries.map (·.key) = d.entries.map (·.key) ∧
       (d.atIndex i).1.entries.map (·.value) = d.entries.map (·.value) ∧
       (d.atIndex i).1.index = d.index ∧
       (d.atIndex i).1.size = d.size)) := by
  refine ⟨?_, ?_, ?_, ?_, ?_⟩
  · intro hm
    unfold DD.getitem DD.lookupEntry
    rw [if_neg hm]
  · intro hm
    unfold DD.delitem
    rw [if_neg hm]
  · intro hm
    unfold DD.appendleft
    rw [if_pos hm]
  · intro hent
    refine ⟨?_, ?_, ?_, ?_, ?_, ?_⟩
    · simp only [DD.peekleft, hent]
    · simp only [DD.peek, hent]
      rfl
    · simp only [DD.popleft, hent]
    · simp only [DD.pop, DD.popright, hent]
      rfl
    · simp only [DD.popitem, hent]
      rfl
    · simp only [DD.popleftitem, hent]
  · intro i _
    rw [atIndex_fst]
    by_cases hc : d.cache.isSome
    · rw [if_pos hc]
      exact ⟨rfl, rfl, rfl, rfl⟩
    · rw [if_neg hc]
      by_cases hz : d.size = 0
      · simp only [DD.rebuild_cache, if_pos hz]
        exact ⟨rfl, rfl, rfl, rfl⟩
      · simp only [DD.rebuild_cache, if_neg hz]
        refine ⟨enumIdx_keys d.entries, enumIdx_values d.entries, ?_, ?_⟩ <;> trivial

/-- Witness for C10: failed lookups and removals at an absent key on the
concrete three-entry container leave it untouched. -/
theorem error_atomicity_witness :
    dABC.getitem 9 = Except.error Err.keyError ∧
    dABC.delitem 9 = (dABC, Except.error Err.keyError) :=
  ⟨(error_atomicity dABC 9 0 (by decide)).1 (by decide),
   (error_atomicity dABC 9 0 (by decide)).2.1 (by decide)⟩

end DequeDict
